import Mathlib

/-!
Verification of the sidecred reconciliation core (telia-oss/sidecred).

This file shallowly embeds the data model and the operations of the
reconciler (`sidecred.go`, the state model, and the `config` package) as
executable Lean definitions, and proves properties of them.

Modelling conventions:
* Go `time.Time` and `time.Duration` are modelled as `Int` (a point on a
  discrete time line, and a length of time on it).  `time.Now()` is threaded
  through as an explicit `now` parameter.
* Go exported field names are mapped to lower-case Lean field names
  (`Type` is a Lean keyword, so the field is `type`, etc.); method names
  keep the source spelling.
* `json.RawMessage` (opaque byte blobs) is modelled by `RawMessage` below,
  which classifies the bytes by how `encoding/json` unmarshals them.
* External collaborators (providers, stores) are modelled as functions; the
  external calls performed by a run are recorded in an event list.
-/

/-- `CredentialType` is a string tag in the source (`type CredentialType string`). -/
abbrev CredentialType := String

/-- `ProviderType` is a string tag in the source (`type ProviderType string`). -/
abbrev ProviderType := String

/-- `StoreType` is a string tag in the source (`type StoreType string`). -/
abbrev StoreType := String

/-- credential type constant `Randomized` -/
def Randomized : CredentialType := "random"

/-- credential type constant `AWSSTS` -/
def AWSSTS : CredentialType := "aws:sts"

/-- credential type constant `GithubDeployKey` -/
def GithubDeployKey : CredentialType := "github:deploy-key"

/-- credential type constant `GithubAccessToken` -/
def GithubAccessToken : CredentialType := "github:access-token"

/-- credential type constant `ArtifactoryAccessToken` -/
def ArtifactoryAccessToken : CredentialType := "artifactory:access-token"

/-- provider type constant `Random` (named `RandomP` here because Mathlib
already declares a `Random` class) -/
def RandomP : ProviderType := "random"

/-- provider type constant `AWS` -/
def AWS : ProviderType := "aws"

/-- provider type constant `Github` -/
def Github : ProviderType := "github"

/-- provider type constant `Artifactory` -/
def Artifactory : ProviderType := "artifactory"

/-- store type constant `Inprocess` -/
def Inprocess : StoreType := "inprocess"

/-- store type constant `SecretsManager` -/
def SecretsManager : StoreType := "secretsmanager"

/-- store type constant `SSM` -/
def SSM : StoreType := "ssm"

/-- store type constant `GithubSecrets` -/
def GithubSecrets : StoreType := "github"

/-- store type constant `GithubDependabotSecrets` -/
def GithubDependabotSecrets : StoreType := "github:dependabot"

/-- `func (c CredentialType) Provider() ProviderType`: the switch mapping each
credential type to its provider family; the default branch returns the
credential type string itself. -/
def CredentialType.Provider (c : CredentialType) : ProviderType :=
  if c = Randomized then RandomP
  else if c = AWSSTS then AWS
  else if c = GithubDeployKey then Github
  else if c = GithubAccessToken then Github
  else if c = ArtifactoryAccessToken then Artifactory
  else c

/-- Canonical form of the generic value produced by `json.Unmarshal` into an
`interface\x7b\x7d` (arrays and objects are unrolled into cons cells; object
entries are kept in a canonical key order, so `reflect.DeepEqual` on two
decoded values is modelled by equality of canonical forms). -/
inductive JValue where
  | null
  | jbool (b : Bool)
  | jnum (n : Int)
  | jstr (s : String)
  | jarrNil
  | jarrCons (head tail : JValue)
  | jobjNil
  | jobjCons (key : String) (val rest : JValue)
deriving DecidableEq, Repr

/-- Model of `json.RawMessage`, classified by how `encoding/json` treats the
bytes: `empty` for zero-length input, `invalid` for non-empty bytes on which
`json.Unmarshal` fails (the `bytes` tag distinguishes different such blobs),
and `valid v` for non-empty bytes whose decoded generic value is `v`. -/
inductive RawMessage where
  | empty
  | invalid (bytes : String)
  | valid (decoded : JValue)
deriving DecidableEq, Repr

/-- `len(config) == 0` on the underlying bytes. -/
def RawMessage.isEmpty (c : RawMessage) : Bool :=
  c = RawMessage.empty

/-- `func isEqualConfig(b1, b2 []byte) bool`: true when both byte blobs are
empty; false when `json.Unmarshal` fails on either (which includes the case
of one empty and one non-empty blob); otherwise `reflect.DeepEqual` of the
two decoded values. -/
def isEqualConfig (b1 b2 : RawMessage) : Bool :=
  if b1.isEmpty && b2.isEmpty then true
  else
    match b1 with
    | RawMessage.empty => false
    | RawMessage.invalid _ => false
    | RawMessage.valid o1 =>
      match b2 with
      | RawMessage.empty => false
      | RawMessage.invalid _ => false
      | RawMessage.valid o2 => o1 = o2

/-- `type Metadata map[string]string` (only stored and passed through). -/
abbrev Metadata := List (String × String)

/-- `type Credential struct` (provider output). -/
structure Credential where
  name : String
  value : String
  description : String
  expiration : Int
deriving DecidableEq, Repr

/-- `type CredentialRequest struct`; `rotationWindow` models the optional
`*Duration` override. -/
structure CredentialRequest where
  type : CredentialType
  name : String
  rotationWindow : Option Int
  config : RawMessage
deriving DecidableEq, Repr

/-- `type StoreConfig struct`. -/
structure StoreConfig where
  type : StoreType
  name : String
  config : RawMessage
deriving DecidableEq, Repr

/-- `func (c *StoreConfig) Alias() string`. -/
def StoreConfig.Alias (c : StoreConfig) : String :=
  if c.name ≠ "" then c.name else c.type

/-- `type Resource struct` (ledger row owned by a provider). -/
structure Resource where
  type : CredentialType
  id : String
  store : String
  expiration : Int
  deposed : Bool
  config : RawMessage
  metadata : Option Metadata
  inUse : Bool
deriving DecidableEq, Repr

/-- `type Secret struct` (ledger row owned by a store). -/
structure Secret where
  resourceID : String
  path : String
  expiration : Int
deriving DecidableEq, Repr

/-- `type providerState struct`. -/
structure ProviderState where
  type : ProviderType
  resources : List Resource
deriving DecidableEq, Repr

/-- `type storeState struct`. -/
structure StoreState where
  storeConfig : StoreConfig
  secrets : List Secret
deriving DecidableEq, Repr

/-- `type State struct`. -/
structure State where
  providers : List ProviderState
  stores : List StoreState
deriving DecidableEq, Repr

/-- `func NewState() *State`. -/
def NewState : State :=
  { providers := [], stores := [] }

/-- Replace the first element satisfying `p` by its image under `f`
(the shape of a Go `for` loop that mutates the first match and breaks). -/
def updateFirst (p : α → Bool) (f : α → α) : List α → List α
  | [] => []
  | x :: xs => if p x then f x :: xs else x :: updateFirst p f xs

/-- Remove the first element satisfying `p` (a Go loop that deletes the first
match and breaks). -/
def removeFirst (p : α → Bool) : List α → List α
  | [] => []
  | x :: xs => if p x then xs else x :: removeFirst p xs

/-- Replace the last element satisfying `p` by its image under `f` (the shape
of a Go loop that keeps overwriting a pointer variable with the latest match
and mutates through it afterwards). -/
def updateLast (p : α → Bool) (f : α → α) : List α → List α
  | [] => []
  | x :: xs =>
    if xs.any p then x :: updateLast p f xs
    else if p x then f x :: xs
    else x :: xs

/-- `func (s *State) getProviderState(t ProviderType)`: first entry with the
given type. -/
def State.getProviderState (s : State) (t : ProviderType) : Option ProviderState :=
  s.providers.find? (fun provider => provider.type = t)

/-- `func newResource(request, store, expiration, metadata) *Resource`. -/
def newResource (request : CredentialRequest) (store : String) (expiration : Int)
    (metadata : Option Metadata) : Resource :=
  { type := request.type
    id := request.name
    store := store
    config := request.config
    expiration := expiration
    deposed := false
    metadata := metadata
    inUse := true }

/-- The identity-key test used by `AddResource` and `RemoveResource`:
`res.Type == resource.Type && res.Store == resource.Store && res.ID == resource.ID`. -/
def resourceKeyMatches (resource res : Resource) : Bool :=
  res.type = resource.type && res.store = resource.store && res.id = resource.id

/-- `func (s *State) AddResource(resource *Resource)`: the provider entry is
looked up with a loop that keeps the last match and is created (appended) if
absent; every existing resource in that entry sharing the identity key is
flipped to `Deposed = true`; the new resource is appended. -/
def State.AddResource (s : State) (resource : Resource) : State :=
  let pt := CredentialType.Provider resource.type
  let depose := fun (st : ProviderState) =>
    let deposed := st.resources.map fun res =>
      if resourceKeyMatches resource res then { res with deposed := true } else res
    { st with resources := deposed ++ [resource] }
  if s.providers.any (fun provider => provider.type = pt) then
    { s with providers := updateLast (fun provider => provider.type = pt) depose s.providers }
  else
    { s with providers := s.providers ++ [{ type := pt, resources := [resource] }] }

/-- The match test of `GetResourcesByID`:
`r.Type == t && r.Store == store && r.ID == id`. -/
def resourceMatches (t : CredentialType) (id store : String) (r : Resource) : Bool :=
  r.type = t && r.store = store && r.id = id

/-- `func (s *State) GetResourcesByID(t, id, store)`: returns all matching
resources of the provider entry for `t.Provider()` and marks them `InUse`
(the returned values alias the state, so they carry `InUse = true`). The
second component is the updated state. -/
def State.GetResourcesByID (s : State) (t : CredentialType) (id store : String) :
    List Resource × State :=
  match s.getProviderState (CredentialType.Provider t) with
  | none => ([], s)
  | some p =>
    let mark := fun (e : ProviderState) =>
      let rs := e.resources.map fun r =>
        if resourceMatches t id store r then { r with inUse := true } else r
      { e with resources := rs }
    let marked := (mark p).resources
    (marked.filter (resourceMatches t id store),
     { s with providers := updateFirst (fun e => e.type = CredentialType.Provider t) mark s.providers })

/-- `func (s *State) RemoveResource(resource *Resource)`: in the provider
entry for `resource.Type.Provider()`, remove the first resource sharing the
identity key (the Go loop breaks after the first removal). -/
def State.RemoveResource (s : State) (resource : Resource) : State :=
  match s.getProviderState (CredentialType.Provider resource.type) with
  | none => s
  | some _ =>
    let drop := fun (e : ProviderState) =>
      { e with resources := removeFirst (resourceKeyMatches resource) e.resources }
    { s with providers := updateFirst (fun e => e.type = CredentialType.Provider resource.type) drop s.providers }

/-- `func newSecret(resourceID, path string, expiration) *Secret`. -/
def newSecret (resourceID path : String) (expiration : Int) : Secret :=
  { resourceID := resourceID, path := path, expiration := expiration }

/-- `func (s *State) getSecretStoreState(c *StoreConfig)`: first store entry
whose `StoreConfig` is `reflect.DeepEqual` to `c`. -/
def State.getSecretStoreState (s : State) (c : StoreConfig) : Option StoreState :=
  s.stores.find? (fun store => store.storeConfig = c)

/-- `func (s *State) AddSecret(c *StoreConfig, secret *Secret)`: the store
entry is created (appended) if absent; within the entry an existing secret
with the same path is replaced in place, otherwise the secret is appended. -/
def State.AddSecret (s : State) (c : StoreConfig) (secret : Secret) : State :=
  let put := fun (store : StoreState) =>
    let secrets :=
      if store.secrets.any (fun sec => sec.path = secret.path) then
        updateFirst (fun sec => sec.path = secret.path) (fun _ => secret) store.secrets
      else
        store.secrets ++ [secret]
    { store with secrets := secrets }
  if s.stores.any (fun store => store.storeConfig = c) then
    { s with stores := updateFirst (fun store => store.storeConfig = c) put s.stores }
  else
    { s with stores := s.stores ++ [{ storeConfig := c, secrets := [secret] }] }

/-- `func (s *State) ListOrphanedSecrets(c *StoreConfig) []*Secret`: collect
the IDs of all resources across all providers, then filter the secrets of the
store entry for `c` down to those whose `ResourceID` is not among them. -/
def State.ListOrphanedSecrets (s : State) (c : StoreConfig) : List Secret :=
  let validResourceIDs := (s.providers.map (fun p => p.resources.map (fun r => r.id))).flatten
  match s.getSecretStoreState c with
  | none => []
  | some state => state.secrets.filter (fun sec => ¬ validResourceIDs.contains sec.resourceID)

/-- `func (s *State) RemoveSecret(c *StoreConfig, secret *Secret)`: in the
store entry for `c`, remove the first secret with the same path. -/
def State.RemoveSecret (s : State) (c : StoreConfig) (secret : Secret) : State :=
  match s.getSecretStoreState c with
  | none => s
  | some _ =>
    let drop := fun (store : StoreState) =>
      { store with secrets := removeFirst (fun sec => sec.path = secret.path) store.secrets }
    { s with stores := updateFirst (fun store => store.storeConfig = c) drop s.stores }

/-- `func (r *CredentialRequest) hasValidCredentials(resource, rotationWindow) bool`;
`now` models the `time.Now()` call. The last test is
`resource.Expiration.Add(-rotation).Before(time.Now())`, i.e. the credentials
are valid only when `now ≤ resource.expiration - rotation`. -/
def CredentialRequest.hasValidCredentials (r : CredentialRequest) (resource : Resource)
    (rotationWindow now : Int) : Bool :=
  if resource.deposed then false
  else if r.name ≠ resource.id then false
  else if ¬ isEqualConfig r.config resource.config then false
  else
    let rotation := match r.rotationWindow with
      | none => rotationWindow
      | some d => d
    if resource.expiration - rotation < now then false else true

/-- The `Create` operation of the `Provider` interface, as observed by
`Process`: either an error (`none`) or a credential list plus optional
metadata. (`Destroy` only has its error logged, so its result is not
modelled; a destroy call is recorded as an event.) -/
abbrev ProviderCreate := CredentialRequest → Option (List Credential × Option Metadata)

/-- The `Write` operation of the `SecretStore` interface, as observed by
`Process`: either an error (`none`) or the written path. (`Delete` only has
its error logged; a delete call is recorded as an event.) -/
abbrev StoreWrite := String → Credential → RawMessage → Option String

/-- `type Sidecred struct`: the provider and store registries (Go maps,
modelled as association lists) and the global rotation window. -/
structure Sidecred where
  providers : List (ProviderType × ProviderCreate)
  stores : List (StoreType × StoreWrite)
  rotationWindow : Int

/-- `s.providers[t]` map lookup. -/
def lookupProvider (s : Sidecred) (t : ProviderType) : Option ProviderCreate :=
  (s.providers.find? (fun e => e.1 = t)).map (fun e => e.2)

/-- `s.stores[t]` map lookup. -/
def lookupStore (s : Sidecred) (t : StoreType) : Option StoreWrite :=
  (s.stores.find? (fun e => e.1 = t)).map (fun e => e.2)

/-- One external call performed during `Process`, with its observed result. -/
inductive Event where
  | create (r : CredentialRequest) (result : Option (List Credential × Option Metadata))
  | write (c : Credential) (result : Option String)
  | destroy (t : ProviderType) (res : Resource)
  | delete (t : StoreType) (path : String)
deriving DecidableEq, Repr

/-- A `CredentialsMap` value as produced by `Config.Requests()`. -/
structure CredentialsMap where
  store : String
  credentials : List CredentialRequest
deriving DecidableEq, Repr

/-- The `Config` interface as observed by `Process`: the results of its
`Validate()`, `Namespace()`, `Stores()` and `Requests()` methods
(`ns` models `Namespace()`; `validateErr` is `none` when `Validate()`
returns nil). -/
structure Config where
  validateErr : Option String
  ns : String
  stores : List StoreConfig
  requests : List CredentialsMap

/-- The store-resolution loop of `Process`: it assigns every alias match to
`storeConfig` without breaking, so the last match wins. -/
def findStoreConfig (stores : List StoreConfig) (a : String) : Option StoreConfig :=
  stores.foldl (fun acc sc => if StoreConfig.Alias sc = a then some sc else acc) none

/-- The `for _, c := range creds` loop of `Process`: write each credential;
on error continue; on success record the secret under the request's name. -/
def writeCredsLoop (write : StoreWrite) (ns : String) (sc : StoreConfig) (resourceID : String) :
    List Credential → State → State × List Event
  | [], st => (st, [])
  | c :: creds, st =>
    match write ns c sc.config with
    | none =>
      let next := writeCredsLoop write ns sc resourceID creds st
      (next.1, Event.write c none :: next.2)
    | some path =>
      let st' := st.AddSecret sc (newSecret resourceID path c.expiration)
      let next := writeCredsLoop write ns sc resourceID creds st'
      (next.1, Event.write c (some path) :: next.2)

/-- The body of the `CredentialLoop` of `Process` for a single request `r`:
skip on empty name or unregistered provider; look up (and mark in-use) the
existing resources; skip when any has valid credentials; otherwise call
`Create`, and on success record the resource (deposing any predecessor) and
write each credential. -/
def processCredential (s : Sidecred) (now : Int) (ns : String) (sc : StoreConfig)
    (write : StoreWrite) (r : CredentialRequest) (st : State) : State × List Event :=
  if r.name = "" then (st, [])
  else
    match lookupProvider s (CredentialType.Provider r.type) with
    | none => (st, [])
    | some create =>
      let lookup := st.GetResourcesByID r.type r.name (StoreConfig.Alias sc)
      let st₁ := lookup.2
      if lookup.1.any (fun resource => r.hasValidCredentials resource s.rotationWindow now) then
        (st₁, [])
      else
        match create r with
        | none => (st₁, [Event.create r none])
        | some (creds, metadata) =>
          match creds with
          | [] => (st₁, [Event.create r (some ([], metadata))])
          | c0 :: rest =>
            let st₂ := st₁.AddResource (newResource r (StoreConfig.Alias sc) c0.expiration metadata)
            let written := writeCredsLoop write ns sc r.name (c0 :: rest) st₂
            (written.1, Event.create r (some (c0 :: rest, metadata)) :: written.2)

/-- The `CredentialLoop` over all requests of one `CredentialsMap`. -/
def processCredentials (s : Sidecred) (now : Int) (ns : String) (sc : StoreConfig)
    (write : StoreWrite) : List CredentialRequest → State → State × List Event
  | [], st => (st, [])
  | r :: rs, st =>
    let step := processCredential s now ns sc write r st
    let next := processCredentials s now ns sc write rs step.1
    (next.1, step.2 ++ next.2)

/-- The body of the `RequestLoop` of `Process` for one `CredentialsMap`:
resolve the store config (last alias match) and the store implementation,
skipping the whole map when either is missing. -/
def processRequest (s : Sidecred) (now : Int) (cfg : Config) (request : CredentialsMap)
    (st : State) : State × List Event :=
  match findStoreConfig cfg.stores request.store with
  | none => (st, [])
  | some storeConfig =>
    match lookupStore s storeConfig.type with
    | none => (st, [])
    | some write => processCredentials s now cfg.ns storeConfig write request.credentials st

/-- The `RequestLoop` of `Process` over all maps. -/
def processRequests (s : Sidecred) (now : Int) (cfg : Config) :
    List CredentialsMap → State → State × List Event
  | [], st => (st, [])
  | request :: rest, st =>
    let step := processRequest s now cfg request st
    let next := processRequests s now cfg rest step.1
    (next.1, step.2 ++ next.2)

/-- The reverse-index inner loop of the resource sweep of `Process`, for the
provider entry at position `j` of `state.Providers`; the counter argument is
one more than the Go loop index (`i+1` iterations remaining). Each iteration
re-reads the entry's current resource list; resources that are in use and not
deposed are kept; otherwise, when the provider is registered, a destroy call
is recorded and `RemoveResource` is invoked. -/
def resourceSweepLoop (s : Sidecred) (j : Nat) : Nat → State → State × List Event
  | 0, st => (st, [])
  | Nat.succ i, st =>
    match st.providers[j]? with
    | none => resourceSweepLoop s j i st
    | some ps =>
      match ps.resources[i]? with
      | none => resourceSweepLoop s j i st
      | some resource =>
        if resource.inUse && !resource.deposed then resourceSweepLoop s j i st
        else
          match lookupProvider s ps.type with
          | none => resourceSweepLoop s j i st
          | some _ =>
            let st' := st.RemoveResource resource
            let next := resourceSweepLoop s j i st'
            (next.1, Event.destroy ps.type resource :: next.2)

/-- One step of the outer loop of the resource sweep: run the inner loop for
the provider entry at position `j`, starting from its current length. -/
def resourceSweepStep (s : Sidecred) (acc : State × List Event) (j : Nat) : State × List Event :=
  match acc.1.providers[j]? with
  | none => acc
  | some ps =>
    let swept := resourceSweepLoop s j ps.resources.length acc.1
    (swept.1, acc.2 ++ swept.2)

/-- The resource sweep of `Process`: for each provider entry (the entry list
itself never changes during the sweep), run the reverse-index inner loop
starting from the entry's current length. -/
def resourceSweep (s : Sidecred) (st : State) : State × List Event :=
  (List.range st.providers.length).foldl (resourceSweepStep s) (st, [])

/-- The reverse-index inner loop of the orphan-secret sweep of `Process` over
a fixed orphan list: when the store is registered, a delete call is recorded
and `RemoveSecret` is invoked. -/
def orphanSweepLoop (s : Sidecred) (sc : StoreConfig) (orphans : List Secret) :
    Nat → State → State × List Event
  | 0, st => (st, [])
  | Nat.succ i, st =>
    match orphans[i]? with
    | none => orphanSweepLoop s sc orphans i st
    | some secret =>
      match lookupStore s sc.type with
      | none => orphanSweepLoop s sc orphans i st
      | some _ =>
        let st' := st.RemoveSecret sc secret
        let next := orphanSweepLoop s sc orphans i st'
        (next.1, Event.delete sc.type secret.path :: next.2)

/-- One step of the outer loop of the orphan-secret sweep: compute the
orphans of the store entry at position `j` once, then run the inner loop. -/
def orphanSweepStep (s : Sidecred) (acc : State × List Event) (j : Nat) : State × List Event :=
  match acc.1.stores[j]? with
  | none => acc
  | some ss =>
    let orphans := acc.1.ListOrphanedSecrets ss.storeConfig
    let swept := orphanSweepLoop s ss.storeConfig orphans orphans.length acc.1
    (swept.1, acc.2 ++ swept.2)

/-- The orphan-secret sweep of `Process`: for each store entry (the entry
list never changes during the sweep), compute `ListOrphanedSecrets` once and
run the reverse-index inner loop over it. -/
def orphanSweep (s : Sidecred) (st : State) : State × List Event :=
  (List.range st.stores.length).foldl (orphanSweepStep s) (st, [])

/-- `func (s *Sidecred) Process(ctx, config, state) error`: validate the
config, run the request phase, then the resource sweep, then the
orphan-secret sweep. The model also returns the final state and the list of
external calls (the Go method mutates `state` in place). -/
def Sidecred.Process (s : Sidecred) (now : Int) (cfg : Config) (st : State) :
    Except String (State × List Event) :=
  match cfg.validateErr with
  | some e => Except.error ("invalid config: " ++ e)
  | none =>
    let phase1 := processRequests s now cfg cfg.requests st
    let phase2 := resourceSweep s phase1.1
    let phase3 := orphanSweep s phase2.1
    Except.ok (phase3.1, phase1.2 ++ phase2.2 ++ phase3.2)

/-- Go `%q` on a string (for the plain alphanumeric/punctuation strings that
appear in this development, `%q` is the string wrapped in double quotes). -/
def goQuote (s : String) : String := "\"" ++ s ++ "\""

/-- The store-type switch of `v1.Validate` in the `config` package: only
`Inprocess`, `SSM`, `SecretsManager` and `GithubSecrets` are accepted. -/
def knownStoreType (t : StoreType) : Bool :=
  t = Inprocess || t = SSM || t = SecretsManager || t = GithubSecrets

/-- The credential-type switch of `v1.Validate`. -/
def knownCredentialType (t : CredentialType) : Bool :=
  t = AWSSTS || t = GithubAccessToken || t = GithubDeployKey
    || t = ArtifactoryAccessToken || t = Randomized

/-- `type credentialRequest struct` of the `config` package: an inlined
`sidecred.CredentialRequest` plus an optional `list` of sub-requests. -/
structure CredentialRequestCfg where
  inline : CredentialRequest
  list : List CredentialRequest
deriving DecidableEq, Repr

/-- The `for i, r := range c.List` check of `credentialRequest.validate`. -/
def checkListEntries : List CredentialRequest → Nat → Except String Unit
  | [], _ => Except.ok ()
  | r :: rs, i =>
    if ¬ (r.type = "") then
      Except.error ("list entry[" ++ toString i ++ "]: request should not include " ++ goQuote "type")
    else checkListEntries rs (i + 1)

/-- `func (c *credentialRequest) validate() error`. -/
def CredentialRequestCfg.validate (c : CredentialRequestCfg) : Except String Unit :=
  if c.list.length = 0 then Except.ok ()
  else if ¬ (c.inline.name = "") then
    Except.error (goQuote "name" ++ " should not be specified for lists")
  else if ¬ c.inline.config.isEmpty then
    Except.error (goQuote "config" ++ " should not be specified for lists")
  else checkListEntries c.list 0

/-- `func (c *credentialRequest) flatten() []*sidecred.CredentialRequest`:
a singleton of the inlined request, or the list entries with the parent's
type written into each. -/
def CredentialRequestCfg.flatten (c : CredentialRequestCfg) : List CredentialRequest :=
  if c.list.length = 0 then [c.inline]
  else c.list.map (fun r => { r with type := c.inline.type })

/-- `type requestV1 struct` of the `config` package. -/
structure RequestV1 where
  store : String
  creds : List CredentialRequestCfg
deriving DecidableEq, Repr

/-- `type v1 struct` of the `config` package (`ns` models the
`CredentialNamespace` field). -/
structure V1Config where
  version : Int
  ns : String
  stores : List StoreConfig
  requests : List RequestV1
deriving DecidableEq, Repr

/-- The store loop of `v1.Validate`: type switch, duplicate-alias check, and
accumulation of the alias set (modelled as a list with membership). -/
def checkStores : List StoreConfig → Nat → List String → Except String (List String)
  | [], _, seen => Except.ok seen
  | sc :: rest, i, seen =>
    if ¬ knownStoreType sc.type then
      Except.error ("stores[" ++ toString i ++ "]: unknown type " ++ goQuote sc.type)
    else if seen.contains (StoreConfig.Alias sc) then
      Except.error ("stores[" ++ toString i ++ "]: duplicate store " ++ goQuote (StoreConfig.Alias sc))
    else checkStores rest (i + 1) (StoreConfig.Alias sc :: seen)

/-- The exact duplicate-request message of `v1.Validate`:
`fmt.Errorf("requests[%d]: creds[%d]: duplicated request %+v", i, ii, key)`
where `key` is a `struct\x7b store, name string \x7d`. -/
def dupRequestMsg (i ii : Nat) (store name : String) : String :=
  "requests[" ++ toString i ++ "]: creds[" ++ toString ii
    ++ "]: duplicated request \x7bstore:" ++ store ++ " name:" ++ name ++ "\x7d"

/-- The `for _, r := range cred.flatten()` loop of `v1.Validate`: type switch
and duplicate `(store, name)` detection against the accumulated key set. -/
def checkFlat (store : String) (i ii : Nat) :
    List CredentialRequest → List (String × String) → Except String (List (String × String))
  | [], seen => Except.ok seen
  | r :: rs, seen =>
    if ¬ knownCredentialType r.type then
      Except.error ("requests[" ++ toString i ++ "]: creds[" ++ toString ii
        ++ "]: unknown type " ++ goQuote r.type)
    else if seen.contains (store, r.name) then
      Except.error (dupRequestMsg i ii store r.name)
    else checkFlat store i ii rs ((store, r.name) :: seen)

/-- The `for ii, cred := range request.Creds` loop of `v1.Validate`. -/
def checkCreds (store : String) (i : Nat) :
    List CredentialRequestCfg → Nat → List (String × String) → Except String (List (String × String))
  | [], _, seen => Except.ok seen
  | cred :: creds, ii, seen =>
    match cred.validate with
    | Except.error e =>
      Except.error ("requests[" ++ toString i ++ "]: creds[" ++ toString ii ++ "]: " ++ e)
    | Except.ok _ =>
      match checkFlat store i ii cred.flatten seen with
      | Except.error e => Except.error e
      | Except.ok seen' => checkCreds store i creds (ii + 1) seen'

/-- The `for i, request := range c.CredentialRequests` loop of `v1.Validate`. -/
def checkRequests : List RequestV1 → Nat → List String → List (String × String) → Except String Unit
  | [], _, _, _ => Except.ok ()
  | request :: rest, i, aliases, seen =>
    if ¬ aliases.contains request.store then
      Except.error ("requests[" ++ toString i ++ "]: undefined store " ++ goQuote request.store)
    else
      match checkCreds request.store i request.creds 0 seen with
      | Except.error e => Except.error e
      | Except.ok seen' => checkRequests rest (i + 1) aliases seen'

/-- `func (c *v1) Validate() error` of the `config` package. -/
def V1Config.Validate (c : V1Config) : Except String Unit :=
  if c.ns = "" then Except.error (goQuote "namespace" ++ " must be defined")
  else if c.stores.length = 0 then Except.error (goQuote "stores" ++ " must be defined")
  else
    match checkStores c.stores 0 [] with
    | Except.error e => Except.error e
    | Except.ok aliases => checkRequests c.requests 0 aliases []

/-- `func (c *requestV1) asRequest() *sidecred.Request`: concatenation of the
flattened credential lists. -/
def RequestV1.asRequest (c : RequestV1) : CredentialsMap :=
  { store := c.store
    credentials := (c.creds.map CredentialRequestCfg.flatten).flatten }

/-- `func (c *v1) Requests()`. -/
def V1Config.Requests (c : V1Config) : List CredentialsMap :=
  c.requests.map RequestV1.asRequest

/-- The flattened `(store, name)` key of every credential request of a `v1`
configuration, in validation order (the keys accumulated by `v1.Validate`). -/
def flatPairs (c : V1Config) : List (String × String) :=
  (c.requests.map (fun request =>
    ((request.creds.map CredentialRequestCfg.flatten).flatten).map
      (fun r => (request.store, r.name)))).flatten

/-- Outcome of the version dispatch in `config.Parse`. -/
inductive ParseOutcome where
  | err (msg : String)
  | v1dispatch
deriving DecidableEq, Repr

/-- The version-dispatch logic of `func Parse(b []byte)` in the `config`
package. `version` is the unmarshalled optional `version` field (a `*int` in
Go). `versionAddr` models the machine address of the heap cell holding that
integer: the source formats the error with
`fmt.Errorf("unknown configuration version: %d", t.Version)` where
`t.Version` is the `*int` itself, and Go's `fmt` applied to a pointer with
the `%d` verb formats the pointer value (the address) as a decimal integer,
not the integer it points to. -/
def parseVersionDispatch (version : Option Int) (versionAddr : Nat) : ParseOutcome :=
  match version with
  | none => ParseOutcome.err (goQuote "version" ++ " must be defined")
  | some v =>
    if v = 1 then ParseOutcome.v1dispatch
    else ParseOutcome.err ("unknown configuration version: " ++ toString versionAddr)

/-- Specification-side restatement of `ListOrphanedSecrets` (claim C10): the
secrets of the store entry matching `c` whose `ResourceID` differs from the
ID of every resource in every provider entry. -/
def orphanSpecList (s : State) (c : StoreConfig) : List Secret :=
  match s.getSecretStoreState c with
  | none => []
  | some entry =>
    entry.secrets.filter fun sec =>
      decide (∀ p ∈ s.providers, ∀ r ∈ p.resources, r.id ≠ sec.resourceID)

/-- Whether an event is a provider `Create` call. -/
def isCreateEvent : Event → Bool
  | Event.create _ _ => true
  | _ => false

/-- Whether an event is a store `Write` call. -/
def isWriteEvent : Event → Bool
  | Event.write _ _ => true
  | _ => false

/-- The validity test exactly as the specification words it (claim C1):
not deposed, matching ID, logically equal config, and the strict bound
`now < resource.Expiration − w`. -/
def claimedValidity (r : CredentialRequest) (resource : Resource) (rotationWindow now : Int) : Bool :=
  let w := match r.rotationWindow with
    | none => rotationWindow
    | some d => d
  (!resource.deposed) && (resource.id = r.name)
    && isEqualConfig resource.config r.config
    && (now < resource.expiration - w)

/-- The amended validity test (claim C1, corrected): identical to
`claimedValidity` except that the time bound is the non-strict
`now ≤ resource.Expiration − w`, matching the source's
`!resource.Expiration.Add(-rotation).Before(now)`. -/
def validityAmended (r : CredentialRequest) (resource : Resource) (rotationWindow now : Int) : Bool :=
  let w := match r.rotationWindow with
    | none => rotationWindow
    | some d => d
  (!resource.deposed) && (resource.id = r.name)
    && isEqualConfig resource.config r.config
    && (now ≤ resource.expiration - w)

/-- Erase the transient `InUse` flag of a resource. -/
def Resource.forgetInUse (r : Resource) : Resource :=
  { r with inUse := false }

/-- Erase every transient `InUse` flag of a state (the persisted view:
`InUse` carries the json tag `"-"` and is never serialized). -/
def State.forgetInUse (s : State) : State :=
  { providers := s.providers.map fun p => { p with resources := p.resources.map Resource.forgetInUse }
    stores := s.stores }

/-- An entry list has pairwise-distinct provider types. -/
def distinctProviderTypes (s : State) : Prop :=
  (s.providers.map (fun p => p.type)).Nodup

/-- Every resource of every provider entry is filed under its own provider
type (`AddResource` files a resource under `resource.Type.Provider()`). -/
def typeConsistent (s : State) : Prop :=
  ∀ p ∈ s.providers, ∀ r ∈ p.resources, CredentialType.Provider r.type = p.type

/-- Store entries are pairwise distinct (store-entry identity is deep
equality of `StoreConfig`, and `AddSecret` only appends an entry when no
deep-equal one exists). -/
def distinctStoreEntries (s : State) : Prop :=
  (s.stores.map (fun e => e.storeConfig)).Nodup

/-- Secret paths are unique within each store entry (`AddSecret` replaces
in place on a path collision). -/
def uniqueSecretPaths (s : State) : Prop :=
  ∀ e ∈ s.stores, (e.secrets.map (fun sec => sec.path)).Nodup

/-- Well-formedness of a state: the invariants that the state operations
themselves maintain (starting from `NewState`). -/
def State.WellFormed (s : State) : Prop :=
  distinctProviderTypes s ∧ typeConsistent s ∧ distinctStoreEntries s ∧ uniqueSecretPaths s

/-- Within one provider entry, every resource that shares its identity key
with a *later* resource of the entry is deposed (so per identity key the
entry is a run of deposed resources followed by at most one live one).
`AddResource` maintains this shape: it deposes all existing key matches and
appends the new resource at the end. -/
def orderedKeys (l : List Resource) : Prop :=
  l.Pairwise fun a b => resourceKeyMatches b a = true → a.deposed = true

/-- The effective rotation window of a request: its own override if set,
else the global window of the `Sidecred` instance. -/
def effRot (s : Sidecred) (r : CredentialRequest) : Int :=
  match r.rotationWindow with
  | none => s.rotationWindow
  | some d => d

/-- A request `r` targeted at store alias `a` is covered in state `st`: some
provider entry of type `r.Type.Provider()` holds a non-deposed, in-use
resource matching the request's identity key whose credentials are still
valid at `now`. A covered request is skipped by the request phase. -/
def covered (s : Sidecred) (now : Int) (a : String) (r : CredentialRequest) (st : State) : Prop :=
  ∃ (k : Nat) (ps : ProviderState) (res : Resource), st.providers[k]? = some ps
    ∧ ps.type = CredentialType.Provider r.type
    ∧ res ∈ ps.resources
    ∧ resourceMatches r.type r.name a res = true
    ∧ res.inUse = true ∧ res.deposed = false
    ∧ r.hasValidCredentials res s.rotationWindow now = true

/-- A successful `Create` observation for request `r` whose first credential
is still outside the effective rotation window at `now`: the result is a
non-empty credential list (plus optional metadata) and the head credential's
expiration satisfies `now ≤ expiration - effRot`. -/
def createOK (s : Sidecred) (now : Int) (r : CredentialRequest)
    (result : Option (List Credential × Option Metadata)) : Prop :=
  (∃ creds metadata, result = some (creds, metadata) ∧ ¬ creds = [])
  ∧ (∀ creds metadata c0, result = some (creds, metadata) → creds.head? = some c0 →
      now ≤ c0.expiration - effRot s r)

/-! Concrete fixtures used by counterexamples and witnesses. -/

/-- A provider registry entry whose `Create` always fails. -/
def failingCreate : ProviderCreate := fun _ => none

/-- A store whose `Write` always fails. -/
def failingWrite : StoreWrite := fun _ _ _ => none

/-- A `Create` returning one fixed credential expiring at time 100. -/
def okCreate : ProviderCreate :=
  fun _ => some ([{ name := "fake-credential", value := "fake-value",
                    description := "d", expiration := 100 }], none)

/-- A `Write` that stores under a fixed path. -/
def okWrite : StoreWrite := fun _ _ _ => some "team-name.fake-credential"

/-- An in-process store config fixture. -/
def exStoreConfig : StoreConfig :=
  { type := Inprocess, name := "", config := RawMessage.empty }

/-- A `random`-type credential request fixture named `fake.state.id`. -/
def exRequest : CredentialRequest :=
  { type := Randomized, name := "fake.state.id", rotationWindow := none, config := RawMessage.empty }

/-- A resource for `exRequest` expiring at time 10. -/
def exResource : Resource :=
  { type := Randomized, id := "fake.state.id", store := "inprocess", expiration := 10,
    deposed := false, config := RawMessage.empty, metadata := none, inUse := false }

/-- Registries with a `random` provider and an `inprocess` store, and a
global rotation window of 5. -/
def exSidecred : Sidecred :=
  { providers := [(RandomP, okCreate)], stores := [(Inprocess, okWrite)], rotationWindow := 5 }

/-- A state holding only `exResource`. -/
def exState : State :=
  { providers := [{ type := RandomP, resources := [exResource] }], stores := [] }

/-- Registries with no providers and no stores. -/
def emptySidecred : Sidecred :=
  { providers := [], stores := [], rotationWindow := 5 }

/-- A trivially valid config with no requests (its `Validate()` returns nil). -/
def emptyConfig : Config :=
  { validateErr := none, ns := "team-name", stores := [exStoreConfig], requests := [] }

/-- A deposed resource filed under the `aws` provider. -/
def deposedAwsResource : Resource :=
  { type := AWSSTS, id := "old.id", store := "inprocess", expiration := 0,
    deposed := true, config := RawMessage.empty, metadata := none, inUse := false }

/-- A state with one deposed resource whose provider (`aws`) is not
registered in `emptySidecred`. -/
def deposedState : State :=
  { providers := [{ type := AWS, resources := [deposedAwsResource] }], stores := [] }

/-- A state with one orphaned secret in an `inprocess` store entry, and no
resources at all. -/
def orphanState : State :=
  { providers := []
    stores := [{ storeConfig := exStoreConfig,
                 secrets := [{ resourceID := "gone.id", path := "p", expiration := 0 }] }] }

/-- At most one non-deposed resource per identity key `(Type, Store, ID)`
within one provider entry: any two resources sharing an identity key have at
least one of them deposed. -/
def atMostOneLivePerKey (l : List Resource) : Prop :=
  l.Pairwise fun a b => resourceKeyMatches b a = true → a.deposed = true ∨ b.deposed = true

/-- Registries whose `random` provider always fails `Create` and whose
`inprocess` store always fails `Write`. -/
def failSidecred : Sidecred :=
  { providers := [(RandomP, failingCreate)], stores := [(Inprocess, failingWrite)],
    rotationWindow := 5 }

/-- The flattened `(store, name)` keys contributed by the cred entries of one
request map. -/
def credPairs (store : String) (creds : List CredentialRequestCfg) : List (String × String) :=
  ((creds.map CredentialRequestCfg.flatten).flatten).map (fun r => (store, r.name))

/-- A v1 configuration whose only store is of the enumerated type
`github:dependabot`. -/
def dependabotConfig : V1Config :=
  { version := 1, ns := "team-name",
    stores := [{ type := GithubDependabotSecrets, name := "", config := RawMessage.empty }],
    requests := [] }

/-- A well-formed v1 configuration (one `secretsmanager` store, one `aws:sts`
request). -/
def exV1Config : V1Config :=
  { version := 1, ns := "cloudops",
    stores := [{ type := SecretsManager, name := "", config := RawMessage.empty }],
    requests := [{ store := "secretsmanager",
                   creds := [{ inline := { type := AWSSTS, name := "open-source-dev-read-only",
                                           rotationWindow := none, config := RawMessage.empty },
                               list := [] }] }] }

/-- `exV1Config` with the request duplicated inside one `creds` list (the
shape of test scenario S7). -/
def dupV1Config : V1Config :=
  { version := 1, ns := "cloudops",
    stores := [{ type := SecretsManager, name := "", config := RawMessage.empty }],
    requests := [{ store := "secretsmanager",
                   creds := [{ inline := { type := AWSSTS, name := "open-source-dev-read-only",
                                           rotationWindow := none, config := RawMessage.empty },
                               list := [] },
                             { inline := { type := AWSSTS, name := "open-source-dev-read-only",
                                           rotationWindow := none, config := RawMessage.empty },
                               list := [] }] }] }

/-- A fresh resource sharing `exResource`'s identity key (a rotation
successor expiring at time 100). -/
def exResource2 : Resource :=
  { type := Randomized, id := "fake.state.id", store := "inprocess", expiration := 100,
    deposed := false, config := RawMessage.empty, metadata := none, inUse := true }

/-- The conjunction of the state invariants maintained by the state
operations themselves: distinct provider entry types, resources filed under
their own provider type, deposed-before-live ordering per identity key,
distinct store entries, and unique secret paths per store entry. -/
def StateInv (st : State) : Prop :=
  distinctProviderTypes st ∧ typeConsistent st
    ∧ (∀ p ∈ st.providers, orderedKeys p.resources)
    ∧ distinctStoreEntries st ∧ uniqueSecretPaths st

/-- The credential returned by `okCreate`. -/
def wCred : Credential :=
  { name := "fake-credential", value := "fake-value", description := "d", expiration := 100 }

/-- A one-request credentials map targeting the `inprocess` store alias. -/
def wRequestMap : CredentialsMap := { store := "inprocess", credentials := [exRequest] }

/-- A valid config with one `inprocess` store and one `random` request. -/
def wConfig : Config :=
  { validateErr := none, ns := "team-name", stores := [exStoreConfig], requests := [wRequestMap] }

/-- The state saved by a successful run of `Process` over `wConfig` from the
empty state: one live in-use resource and its written secret. -/
def wSt1 : State :=
  { providers := [{ type := RandomP,
                    resources := [{ type := Randomized, id := "fake.state.id",
                                    store := "inprocess", expiration := 100,
                                    deposed := false, config := RawMessage.empty,
                                    metadata := none, inUse := true }] }],
    stores := [{ storeConfig := exStoreConfig,
                 secrets := [{ resourceID := "fake.state.id",
                               path := "team-name.fake-credential",
                               expiration := 100 }] }] }

/-- The external calls recorded by that first run. -/
def wEvs : List Event :=
  [Event.create exRequest (some ([wCred], none)),
   Event.write wCred (some "team-name.fake-credential")]

/-! ## Theorems -/

/-- C10: `State.ListOrphanedSecrets(c)` returns exactly those secrets of the
store entry matching `c` (by deep equality of `StoreConfig`) whose
`ResourceID` differs from the ID of every resource in every provider entry;
the match is on the resource ID alone, independent of the resource's store
alias or credential type. -/
theorem ListOrphanedSecrets_eq_spec (s : State) (c : StoreConfig) :
    s.ListOrphanedSecrets c = orphanSpecList s c := by
  unfold State.ListOrphanedSecrets orphanSpecList
  cases h : s.getSecretStoreState c with
  | none => simp
  | some entry =>
    simp only
    apply List.filter_congr
    intro sec _
    rw [decide_eq_decide]
    simp [List.contains, List.elem_iff, List.mem_flatten, List.mem_map]

/-- C7 (code bug): when the manifest's version field is defined and differs
from 1, `config.Parse` formats the error with the `*int` pointer itself, so
the message contains the decimal machine address of the version cell, not
the version value: at version 2 the message is not
`unknown configuration version: 2` (a Go heap address is never 2).
A manifest with version 1 is dispatched to the strict v1 unmarshaller. -/
theorem parse_unknown_version_message_uses_pointer :
    (∀ versionAddr : Nat,
        parseVersionDispatch (some 2) versionAddr
          = ParseOutcome.err ("unknown configuration version: " ++ toString versionAddr))
    ∧ parseVersionDispatch (some 2) 824634441728
        ≠ ParseOutcome.err "unknown configuration version: 2"
    ∧ parseVersionDispatch (some 1) 824634441728 = ParseOutcome.v1dispatch := by
  refine ⟨fun versionAddr => ?_, by decide, by decide⟩
  rfl

theorem isEqualConfig_comm (b1 b2 : RawMessage) : isEqualConfig b1 b2 = isEqualConfig b2 b1 := by
  cases b1 <;> cases b2 <;> simp [isEqualConfig, RawMessage.isEmpty, eq_comm]

theorem hasValidCredentials_eq_validityAmended (r : CredentialRequest) (res : Resource)
    (w now : Int) : r.hasValidCredentials res w now = validityAmended r res w now := by
  unfold CredentialRequest.hasValidCredentials validityAmended
  rw [isEqualConfig_comm r.config res.config]
  by_cases hdep : res.deposed <;>
    by_cases hname : r.name = res.id <;>
      by_cases hcfg : isEqualConfig res.config r.config = true <;>
        cases hrw : r.rotationWindow <;>
          simp [hdep, hname, hcfg, hrw, eq_comm] <;>
            (rw [← decide_not, decide_eq_decide]; omega)

/-- C1 (amended): during the request phase, for a request `r` with non-empty
name and a registered provider, creation is skipped (the step performs no
provider `Create` call) if and only if some resource returned by
`GetResourcesByID(r.Type, r.Name, storeAlias)` satisfies the validity test
with the *non-strict* time bound `now ≤ resource.Expiration − w`, where `w`
is `r.RotationWindow` if set, else the global rotation window. (The claim's
strict bound `now < resource.Expiration − w` is refuted by
`requestPhase_strict_validity_counterexample`.) -/
theorem processCredential_skips_iff_validityAmended (s : Sidecred) (now : Int) (ns : String)
    (sc : StoreConfig) (write : StoreWrite) (r : CredentialRequest) (st : State)
    (hname : r.name ≠ "")
    (hp : (lookupProvider s (CredentialType.Provider r.type)).isSome) :
    (processCredential s now ns sc write r st).2.any isCreateEvent = false
      ↔ ((st.GetResourcesByID r.type r.name (StoreConfig.Alias sc)).1.any
           (fun resource => validityAmended r resource s.rotationWindow now)) = true := by
  obtain ⟨create, hc⟩ := Option.isSome_iff_exists.mp hp
  unfold processCredential
  rw [if_neg hname, hc]
  simp only [hasValidCredentials_eq_validityAmended]
  by_cases hv : ((st.GetResourcesByID r.type r.name (StoreConfig.Alias sc)).1.any
      (fun resource => validityAmended r resource s.rotationWindow now)) = true
  · simp [hv]
  · simp only [hv, if_neg]
    rw [if_neg (by simp [hv])]
    cases hcr : create r with
    | none => simp [isCreateEvent, hv]
    | some result =>
      cases result with
      | mk creds metadata =>
        cases creds with
        | nil => simp [isCreateEvent, hv]
        | cons c0 rest => simp [isCreateEvent, hv]

/-- C1 (counterexample to the strict bound): at the boundary instant
`now = Expiration − w` (here `now = 5`, `Expiration = 10`, global window 5),
the request-phase step performs no `Create` call — creation *is* skipped —
yet no returned resource satisfies the claimed validity test with the strict
bound `now < Expiration − w`. -/
theorem requestPhase_strict_validity_counterexample :
    (processCredential exSidecred 5 "team-name" exStoreConfig okWrite exRequest exState).2.any
        isCreateEvent = false
    ∧ ((exState.GetResourcesByID exRequest.type exRequest.name
          (StoreConfig.Alias exStoreConfig)).1.any
        (fun resource => claimedValidity exRequest resource exSidecred.rotationWindow 5)) = false := by
  decide

/-- Witness for `processCredential_skips_iff_validityAmended` at a concrete
input. -/
theorem processCredential_skips_iff_validityAmended_witness :
    (processCredential exSidecred 5 "team-name" exStoreConfig okWrite exRequest exState).2.any
        isCreateEvent = false
      ↔ ((exState.GetResourcesByID exRequest.type exRequest.name
            (StoreConfig.Alias exStoreConfig)).1.any
          (fun resource => validityAmended exRequest resource exSidecred.rotationWindow 5)) = true :=
  processCredential_skips_iff_validityAmended exSidecred 5 "team-name" exStoreConfig okWrite
    exRequest exState (by decide) (by decide)

theorem updateFirst_map (p : α → Bool) (g : α → α) (f : α → β) (l : List α)
    (h : ∀ a, f (g a) = f a) : (updateFirst p g l).map f = l.map f := by
  induction l with
  | nil => rfl
  | cons x xs ih => by_cases hx : p x <;> simp [updateFirst, hx, h, ih]

theorem forgetInUse_mark (t : CredentialType) (id store : String) (r : Resource) :
    Resource.forgetInUse (if resourceMatches t id store r then { r with inUse := true } else r)
      = Resource.forgetInUse r := by
  split <;> rfl

theorem GetResourcesByID_stores (st : State) (t : CredentialType) (id store : String) :
    (st.GetResourcesByID t id store).2.stores = st.stores := by
  unfold State.GetResourcesByID
  cases h : st.getProviderState (CredentialType.Provider t) <;> rfl

theorem GetResourcesByID_forgetInUse (st : State) (t : CredentialType) (id store : String) :
    (st.GetResourcesByID t id store).2.forgetInUse = st.forgetInUse := by
  unfold State.GetResourcesByID
  cases h : st.getProviderState (CredentialType.Provider t) with
  | none => rfl
  | some p =>
    unfold State.forgetInUse
    simp only [State.mk.injEq, and_true]
    apply updateFirst_map
    intro e
    simp only [ProviderState.mk.injEq, List.map_map, true_and]
    apply List.map_congr_left
    intro r _
    exact forgetInUse_mark t id store r

/-- C4: if the provider's `Create` returns an error or an empty credential
list for a request `r`, the request-phase step for `r` does not change the
state's resource and secret records: the secrets are untouched and the
resources are unchanged except possibly for the transient `InUse` flag set
by the `GetResourcesByID` lookup (in particular no resource is added, no
existing resource is deposed, and no secret is added). -/
theorem processCredential_createFail_stateUnchanged (s : Sidecred) (now : Int) (ns : String)
    (sc : StoreConfig) (write : StoreWrite) (r : CredentialRequest) (st : State)
    (hfail : ∀ create, lookupProvider s (CredentialType.Provider r.type) = some create →
      ∀ creds metadata, create r = some (creds, metadata) → creds = []) :
    (processCredential s now ns sc write r st).1.forgetInUse = st.forgetInUse
    ∧ (processCredential s now ns sc write r st).1.stores = st.stores := by
  unfold processCredential
  by_cases hname : r.name = ""
  · simp [hname]
  · rw [if_neg hname]
    cases hp : lookupProvider s (CredentialType.Provider r.type) with
    | none => exact ⟨rfl, rfl⟩
    | some create =>
      by_cases hv : ((st.GetResourcesByID r.type r.name (StoreConfig.Alias sc)).1.any
          (fun resource => r.hasValidCredentials resource s.rotationWindow now)) = true
      · simp only [hv, if_true]
        exact ⟨GetResourcesByID_forgetInUse st r.type r.name (StoreConfig.Alias sc),
               GetResourcesByID_stores st r.type r.name (StoreConfig.Alias sc)⟩
      · dsimp only
        rw [if_neg hv]
        cases hcr : create r with
        | none =>
          exact ⟨GetResourcesByID_forgetInUse st r.type r.name (StoreConfig.Alias sc),
                 GetResourcesByID_stores st r.type r.name (StoreConfig.Alias sc)⟩
        | some result =>
          obtain ⟨creds, metadata⟩ := result
          have hnil : creds = [] := hfail create hp creds metadata hcr
          subst hnil
          exact ⟨GetResourcesByID_forgetInUse st r.type r.name (StoreConfig.Alias sc),
                 GetResourcesByID_stores st r.type r.name (StoreConfig.Alias sc)⟩

/-- Witness for `processCredential_createFail_stateUnchanged` at a concrete
input: a failing provider, a request whose resource is expired (so `Create`
is reached), and the state fixture. -/
theorem processCredential_createFail_stateUnchanged_witness :
    (processCredential failSidecred 50 "team-name" exStoreConfig failingWrite exRequest
        exState).1.forgetInUse = exState.forgetInUse
    ∧ (processCredential failSidecred 50 "team-name" exStoreConfig failingWrite exRequest
        exState).1.stores = exState.stores :=
  processCredential_createFail_stateUnchanged failSidecred 50 "team-name" exStoreConfig
    failingWrite exRequest exState
    (fun create hc creds metadata hcr => by
      have hcf : (some failingCreate : Option ProviderCreate) = some create := hc
      rw [← Option.some.inj hcf] at hcr
      simp [failingCreate] at hcr)

theorem updateLast_eq_of_unique (p : α → Bool) (f : α → α) (pre : List α) (e : α) (post : List α)
    (hpre : ∀ x ∈ pre, p x = false) (he : p e = true) (hpost : ∀ x ∈ post, p x = false) :
    updateLast p f (pre ++ e :: post) = pre ++ f e :: post := by
  induction pre with
  | nil =>
    have hany : post.any p = false := by
      simp only [List.any_eq_false]
      intro x hx
      simp [hpost x hx]
    simp [updateLast, hany, he]
  | cons x xs ih =>
    have hx : p x = false := hpre x (List.mem_cons_self x xs)
    have hany : (xs ++ e :: post).any p = true := by
      simp only [List.any_eq_true]
      exact ⟨e, by simp, he⟩
    simp only [List.cons_append, updateLast, List.append_eq, hany, if_true]
    rw [ih (fun y hy => hpre y (List.mem_cons_of_mem x hy))]

theorem updateLast_forall (p : α → Bool) (f : α → α) (l : List α) (Q : α → Prop)
    (hl : ∀ x ∈ l, Q x) (hf : ∀ x, Q x → Q (f x)) : ∀ y ∈ updateLast p f l, Q y := by
  induction l with
  | nil => intro y hy; cases hy
  | cons x xs ih =>
    intro y hy
    by_cases hany : xs.any p
    · simp only [updateLast, hany, if_true] at hy
      rcases List.mem_cons.mp hy with h | h
      · exact h ▸ hl x (List.mem_cons_self x xs)
      · exact ih (fun z hz => hl z (List.mem_cons_of_mem x hz)) y h
    · simp only [updateLast, hany] at hy
      by_cases hx : p x
      · simp only [hx, if_true, if_false] at hy
        rcases List.mem_cons.mp hy with h | h
        · exact h ▸ hf x (hl x (List.mem_cons_self x xs))
        · exact hl y (List.mem_cons_of_mem x h)
      · simp only [hx, if_false] at hy
        exact hl y hy

theorem keyMatches_depose_image (res x : Resource) :
    resourceKeyMatches res (if resourceKeyMatches res x then { x with deposed := true } else x)
      = resourceKeyMatches res x := by
  split <;> simp_all [resourceKeyMatches]

theorem keyMatches_depose_image₂ (res a b : Resource) :
    resourceKeyMatches
        (if resourceKeyMatches res b then { b with deposed := true } else b)
        (if resourceKeyMatches res a then { a with deposed := true } else a)
      = resourceKeyMatches b a := by
  cases hb : resourceKeyMatches res b <;>
    cases ha : resourceKeyMatches res a <;>
      simp [hb, ha, resourceKeyMatches]

theorem deposed_depose_image (res x : Resource) (h : x.deposed = true) :
    (if resourceKeyMatches res x then { x with deposed := true } else x).deposed = true := by
  split <;> simp_all

theorem atMostOneLivePerKey_depose_append (res : Resource) (l : List Resource)
    (hl : atMostOneLivePerKey l) :
    atMostOneLivePerKey
      ((l.map fun x => if resourceKeyMatches res x then { x with deposed := true } else x)
        ++ [res]) := by
  rw [atMostOneLivePerKey, List.pairwise_append]
  refine ⟨?_, by simp, ?_⟩
  · refine List.Pairwise.map _ (fun a b hab => ?_) hl
    intro hm
    rw [keyMatches_depose_image₂ res a b] at hm
    rcases hab hm with h | h
    · exact Or.inl (deposed_depose_image res a h)
    · exact Or.inr (deposed_depose_image res b h)
  · intro a ha b hb hm
    rcases List.mem_singleton.mp hb with rfl
    rcases List.mem_map.mp ha with ⟨x, hx, rfl⟩
    left
    rw [keyMatches_depose_image b x] at hm
    simp [hm]

/-- C6: `State.AddResource(res)` appends `res` to the provider entry for
`res.Type.Provider()` — updating the (unique) entry of that type when one
exists, and appending a fresh entry otherwise — and flips `Deposed = true`
on every previously present resource of that entry sharing the identity key
`(Type, Store, ID)` with `res`; and if every provider entry had at most one
non-deposed resource per identity key before the call and `res` is not
deposed, the same invariant holds after the call. -/
theorem AddResource_spec :
    (∀ (s : State) (res : Resource) (pre : List ProviderState) (e : ProviderState)
        (post : List ProviderState),
        s.providers = pre ++ e :: post →
        e.type = CredentialType.Provider res.type →
        (∀ x ∈ pre ++ post, ¬ x.type = CredentialType.Provider res.type) →
        (s.AddResource res).providers
          = pre ++ { e with resources :=
              (e.resources.map fun x =>
                if resourceKeyMatches res x then { x with deposed := true } else x) ++ [res] }
            :: post)
    ∧ (∀ (s : State) (res : Resource),
        (∀ x ∈ s.providers, ¬ x.type = CredentialType.Provider res.type) →
        (s.AddResource res).providers
          = s.providers ++ [{ type := CredentialType.Provider res.type, resources := [res] }])
    ∧ (∀ (s : State) (res : Resource),
        res.deposed = false →
        (∀ p ∈ s.providers, atMostOneLivePerKey p.resources) →
        ∀ p ∈ (s.AddResource res).providers, atMostOneLivePerKey p.resources) := by
  refine ⟨?_, ?_, ?_⟩
  · intro s res pre e post hs he hrest
    unfold State.AddResource
    have hany : (s.providers.any fun provider => provider.type = CredentialType.Provider res.type)
        = true := by
      rw [hs]
      simp only [List.any_eq_true]
      exact ⟨e, by simp, by simp [he]⟩
    simp only [hany, if_true]
    rw [hs]
    exact updateLast_eq_of_unique _ _ pre e post
      (fun x hx => by simp [hrest x (List.mem_append_left post hx)])
      (by simp [he])
      (fun x hx => by simp [hrest x (List.mem_append_right pre hx)])
  · intro s res hall
    unfold State.AddResource
    have hany : (s.providers.any fun provider => provider.type = CredentialType.Provider res.type)
        = false := by
      simp only [List.any_eq_false]
      intro x hx
      simp [hall x hx]
    simp [hany]
  · intro s res hdep hinv
    unfold State.AddResource
    by_cases hany : (s.providers.any fun provider => provider.type = CredentialType.Provider res.type)
        = true
    · simp only [hany, if_true]
      intro p hp
      refine updateLast_forall _ _ s.providers (fun q => atMostOneLivePerKey q.resources)
        hinv (fun x hx => ?_) p hp
      exact atMostOneLivePerKey_depose_append res x.resources hx
    · rw [if_neg hany]
      intro p hp
      rcases List.mem_append.mp hp with h | h
      · exact hinv p h
      · rcases List.mem_singleton.mp h with rfl
        simp [atMostOneLivePerKey]

/-- Witness for `AddResource_spec` at a concrete input (part three of the
conjunction, instantiated at the fixtures). -/
theorem AddResource_spec_witness :
    ∀ p ∈ (exState.AddResource exResource2).providers, atMostOneLivePerKey p.resources :=
  AddResource_spec.2.2 exState exResource2 (by decide)
    (by
      intro p hp
      rcases List.mem_singleton.mp hp with rfl
      simp [atMostOneLivePerKey])

theorem checkStores_ok_known (l : List StoreConfig) :
    ∀ (i : Nat) (seen out : List String), checkStores l i seen = Except.ok out →
      ∀ sc ∈ l, knownStoreType sc.type = true := by
  induction l with
  | nil => intro i seen out h sc hsc; cases hsc
  | cons x xs ih =>
    intro i seen out h sc hsc
    by_cases hk : knownStoreType x.type = true
    · rw [checkStores, if_neg (by simp [hk])] at h
      by_cases hc : seen.contains (StoreConfig.Alias x) = true
      · rw [if_pos hc] at h
        cases h
      · rw [if_neg hc] at h
        rcases List.mem_cons.mp hsc with rfl | hmem
        · exact hk
        · exact ih (i + 1) (StoreConfig.Alias x :: seen) out h sc hmem
    · rw [checkStores, if_pos (by simp [hk])] at h
      cases h

/-- C9 (counterexample): `github:dependabot` is one of the enumerated
`StoreType` constants, yet `v1.Validate` rejects a store of that type with
the unknown-type error, so Validate does not accept every recognized
`StoreType` value. -/
theorem validate_rejects_dependabot_store :
    dependabotConfig.Validate
      = Except.error "stores[0]: unknown type \"github:dependabot\"" := by
  rfl

/-- C9 (amended): `v1.Validate` accepts a store entry's type exactly when it
is one of `inprocess`, `ssm`, `secretsmanager`, `github`; every other type —
including the enumerated `github:dependabot` — is rejected with
`stores[i]: unknown type "T"`. -/
theorem validate_store_type_acceptance :
    (∀ cfg : V1Config, cfg.Validate = Except.ok () →
        ∀ sc ∈ cfg.stores, knownStoreType sc.type = true)
    ∧ (∀ (rest : List StoreConfig) (i : Nat) (seen : List String) (sc : StoreConfig),
        knownStoreType sc.type = false →
        checkStores (sc :: rest) i seen
          = Except.error ("stores[" ++ toString i ++ "]: unknown type " ++ goQuote sc.type))
    ∧ (∀ (rest : List StoreConfig) (i : Nat) (seen : List String) (sc : StoreConfig),
        knownStoreType sc.type = true →
        checkStores (sc :: rest) i seen
          = if seen.contains (StoreConfig.Alias sc) then
              Except.error ("stores[" ++ toString i ++ "]: duplicate store "
                ++ goQuote (StoreConfig.Alias sc))
            else checkStores rest (i + 1) (StoreConfig.Alias sc :: seen)) := by
  refine ⟨?_, ?_, ?_⟩
  · intro cfg h sc hsc
    unfold V1Config.Validate at h
    by_cases h1 : cfg.ns = ""
    · rw [if_pos h1] at h; cases h
    · rw [if_neg h1] at h
      by_cases h2 : cfg.stores.length = 0
      · rw [if_pos h2] at h; cases h
      · rw [if_neg h2] at h
        cases hcs : checkStores cfg.stores 0 [] with
        | error e => rw [hcs] at h; cases h
        | ok aliases => exact checkStores_ok_known cfg.stores 0 [] aliases hcs sc hsc
  · intro rest i seen sc hk
    rw [checkStores, if_pos (by simp [hk])]
  · intro rest i seen sc hk
    rw [checkStores, if_neg (by simp [hk])]

/-- Witness for `validate_store_type_acceptance` at a concrete input. -/
theorem validate_store_type_acceptance_witness :
    ∀ sc ∈ exV1Config.stores, knownStoreType sc.type = true :=
  validate_store_type_acceptance.1 exV1Config (by rfl)

theorem contains_false_not_mem [BEq α] [LawfulBEq α] {l : List α} {a : α}
    (h : l.contains a = false) : a ∉ l := by simpa using h

theorem checkFlat_ok (store : String) (i ii : Nat) :
    ∀ (rs : List CredentialRequest) (seen out : List (String × String)),
      checkFlat store i ii rs seen = Except.ok out →
      out = (rs.map (fun r => (store, r.name))).reverse ++ seen
      ∧ (rs.map (fun r => (store, r.name))).Nodup
      ∧ ∀ p ∈ rs.map (fun r => (store, r.name)), p ∉ seen := by
  intro rs
  induction rs with
  | nil =>
    intro seen out h
    obtain rfl : seen = out := by simpa [checkFlat] using h
    exact ⟨by simp, by simp, by simp⟩
  | cons r rs ih =>
    intro seen out h
    rw [checkFlat] at h
    by_cases hk : knownCredentialType r.type = true
    · rw [if_neg (by simp [hk])] at h
      by_cases hc : seen.contains (store, r.name) = true
      · rw [if_pos hc] at h; cases h
      · rw [if_neg hc] at h
        obtain ⟨hout, hnd, hnot⟩ := ih ((store, r.name) :: seen) out h
        refine ⟨?_, ?_, ?_⟩
        · rw [hout]; simp
        · simp only [List.map_cons, List.nodup_cons]
          refine ⟨fun hmem => ?_, hnd⟩
          exact (hnot _ hmem) (List.mem_cons_self _ _)
        · intro p hp hpseen
          rcases List.mem_cons.mp hp with rfl | hmem
          · exact contains_false_not_mem (Bool.eq_false_iff.mpr hc ▸ rfl) hpseen
          · exact (hnot p hmem) (List.mem_cons_of_mem _ hpseen)
    · rw [if_pos (by simp [hk])] at h; cases h

theorem checkCreds_ok (store : String) (i : Nat) :
    ∀ (creds : List CredentialRequestCfg) (ii : Nat) (seen out : List (String × String)),
      checkCreds store i creds ii seen = Except.ok out →
      out = (credPairs store creds).reverse ++ seen
      ∧ (credPairs store creds).Nodup
      ∧ ∀ p ∈ credPairs store creds, p ∉ seen := by
  intro creds
  induction creds with
  | nil =>
    intro ii seen out h
    obtain rfl : seen = out := by simpa [checkCreds] using h
    exact ⟨by simp [credPairs], by simp [credPairs], by simp [credPairs]⟩
  | cons cred creds ih =>
    intro ii seen out h
    rw [checkCreds] at h
    cases hval : cred.validate with
    | error e => rw [hval] at h; cases h
    | ok u =>
      rw [hval] at h
      cases hflat : checkFlat store i ii cred.flatten seen with
      | error e => rw [hflat] at h; cases h
      | ok seen₁ =>
        rw [hflat] at h
        obtain ⟨hout₁, hnd₁, hnot₁⟩ := checkFlat_ok store i ii cred.flatten seen seen₁ hflat
        obtain ⟨hout, hnd, hnot⟩ := ih (ii + 1) seen₁ out h
        have hsplit : credPairs store (cred :: creds)
            = (cred.flatten.map (fun r => (store, r.name))) ++ credPairs store creds := by
          simp [credPairs]
        refine ⟨?_, ?_, ?_⟩
        · rw [hout, hout₁, hsplit]
          simp [List.reverse_append, List.append_assoc]
        · rw [hsplit]
          refine List.Nodup.append hnd₁ hnd ?_
          intro p hp₁ hp₂
          have := hnot p hp₂
          rw [hout₁] at this
          exact this (List.mem_append_left seen (by simpa using hp₁))
        · rw [hsplit]
          intro p hp hpseen
          rcases List.mem_append.mp hp with hmem | hmem
          · exact (hnot₁ p hmem) hpseen
          · have := hnot p hmem
            rw [hout₁] at this
            exact this (List.mem_append_right _ hpseen)

theorem checkRequests_ok :
    ∀ (requests : List RequestV1) (i : Nat) (aliases : List String)
      (seen : List (String × String)),
      checkRequests requests i aliases seen = Except.ok () →
      ((requests.map fun req => credPairs req.store req.creds).flatten).Nodup
      ∧ ∀ p ∈ (requests.map fun req => credPairs req.store req.creds).flatten, p ∉ seen := by
  intro requests
  induction requests with
  | nil => intro i aliases seen _; exact ⟨by simp, by simp⟩
  | cons req rest ih =>
    intro i aliases seen h
    rw [checkRequests] at h
    by_cases ha : aliases.contains req.store = true
    · rw [if_neg (not_not_intro ha)] at h
      cases hcc : checkCreds req.store i req.creds 0 seen with
      | error e => rw [hcc] at h; cases h
      | ok seen₁ =>
        rw [hcc] at h
        obtain ⟨hout₁, hnd₁, hnot₁⟩ := checkCreds_ok req.store i req.creds 0 seen seen₁ hcc
        obtain ⟨hnd, hnot⟩ := ih (i + 1) aliases seen₁ h
        refine ⟨?_, ?_⟩
        · simp only [List.map_cons, List.flatten_cons]
          refine List.Nodup.append hnd₁ hnd ?_
          intro p hp₁ hp₂
          have := hnot p hp₂
          rw [hout₁] at this
          exact this (List.mem_append_left seen (by simpa using hp₁))
        · simp only [List.map_cons, List.flatten_cons]
          intro p hp hpseen
          rcases List.mem_append.mp hp with hmem | hmem
          · exact (hnot₁ p hmem) hpseen
          · have := hnot p hmem
            rw [hout₁] at this
            exact this (List.mem_append_right _ hpseen)
    · rw [if_pos ha] at h; cases h

theorem validate_ok_flatPairs_nodup (cfg : V1Config) (h : cfg.Validate = Except.ok ()) :
    (flatPairs cfg).Nodup := by
  unfold V1Config.Validate at h
  by_cases h1 : cfg.ns = ""
  · rw [if_pos h1] at h; cases h
  · rw [if_neg h1] at h
    by_cases h2 : cfg.stores.length = 0
    · rw [if_pos h2] at h; cases h
    · rw [if_neg h2] at h
      cases hcs : checkStores cfg.stores 0 [] with
      | error e => rw [hcs] at h; cases h
      | ok aliases =>
        rw [hcs] at h
        exact (checkRequests_ok cfg.requests 0 aliases [] h).1

/-- C8: whenever two flattened credential requests share the same
`(store, name)` pair, `v1.Validate` fails; and at the point where the
duplicate is detected — the second occurrence, inside request map `i`, cred
entry `ii` — the error is exactly
`requests[i]: creds[j]: duplicated request \x7bstore:<alias> name:<name>\x7d`
(the Go `%+v` rendering of the key struct). -/
theorem validate_duplicate_request :
    (∀ cfg : V1Config, ¬ (flatPairs cfg).Nodup → ∃ msg, cfg.Validate = Except.error msg)
    ∧ (∀ (store : String) (i ii : Nat) (r : CredentialRequest) (rs : List CredentialRequest)
        (seen : List (String × String)),
        knownCredentialType r.type = true →
        seen.contains (store, r.name) = true →
        checkFlat store i ii (r :: rs) seen
          = Except.error ("requests[" ++ toString i ++ "]: creds[" ++ toString ii
              ++ "]: duplicated request \x7bstore:" ++ store ++ " name:" ++ r.name ++ "\x7d")) := by
  constructor
  · intro cfg hdup
    cases hv : cfg.Validate with
    | error msg => exact ⟨msg, rfl⟩
    | ok u => cases u; exact absurd (validate_ok_flatPairs_nodup cfg hv) hdup
  · intro store i ii r rs seen hk hc
    rw [checkFlat, if_neg (not_not_intro hk), if_pos hc]
    rfl

/-- Witness for `validate_duplicate_request` at concrete inputs: the
duplicated configuration of test scenario S7 fails validation, and the
duplicate check produces the exact message of that scenario. -/
theorem validate_duplicate_request_witness :
    (dupV1Config.Validate).isOk = false
    ∧ checkFlat "secretsmanager" 0 1
        [{ type := AWSSTS, name := "open-source-dev-read-only", rotationWindow := none,
           config := RawMessage.empty }]
        [("secretsmanager", "open-source-dev-read-only")]
      = Except.error
        "requests[0]: creds[1]: duplicated request \x7bstore:secretsmanager name:open-source-dev-read-only\x7d" := by
  constructor
  · obtain ⟨msg, hmsg⟩ := validate_duplicate_request.1 dupV1Config (by decide)
    rw [hmsg]
    rfl
  · exact validate_duplicate_request.2 "secretsmanager" 0 1
      { type := AWSSTS, name := "open-source-dev-read-only", rotationWindow := none,
        config := RawMessage.empty } []
      [("secretsmanager", "open-source-dev-read-only")] (by decide) (by decide)

theorem resourceKeyMatches_self (a : Resource) : resourceKeyMatches a a = true := by
  simp [resourceKeyMatches]

theorem updateFirst_mem (p : α → Bool) (f : α → α) :
    ∀ (l : List α), ∀ y ∈ updateFirst p f l, y ∈ l ∨ ∃ x ∈ l, p x = true ∧ y = f x := by
  intro l
  induction l with
  | nil => intro y hy; cases hy
  | cons x xs ih =>
    intro y hy
    by_cases hx : p x = true
    · rw [updateFirst, if_pos hx] at hy
      rcases List.mem_cons.mp hy with rfl | hmem
      · exact Or.inr ⟨x, List.mem_cons_self x xs, hx, rfl⟩
      · exact Or.inl (List.mem_cons_of_mem x hmem)
    · rw [updateFirst, if_neg hx] at hy
      rcases List.mem_cons.mp hy with rfl | hmem
      · exact Or.inl (List.mem_cons_self _ _)
      · rcases ih y hmem with h | ⟨z, hz, hpz, hyz⟩
        · exact Or.inl (List.mem_cons_of_mem x h)
        · exact Or.inr ⟨z, List.mem_cons_of_mem x hz, hpz, hyz⟩

theorem updateLast_mem (p : α → Bool) (f : α → α) :
    ∀ (l : List α), ∀ y ∈ updateLast p f l, y ∈ l ∨ ∃ x ∈ l, p x = true ∧ y = f x := by
  intro l
  induction l with
  | nil => intro y hy; cases hy
  | cons x xs ih =>
    intro y hy
    by_cases hany : xs.any p = true
    · rw [updateLast, if_pos hany] at hy
      rcases List.mem_cons.mp hy with rfl | hmem
      · exact Or.inl (List.mem_cons_self _ _)
      · rcases ih y hmem with h | ⟨z, hz, hpz, hyz⟩
        · exact Or.inl (List.mem_cons_of_mem x h)
        · exact Or.inr ⟨z, List.mem_cons_of_mem x hz, hpz, hyz⟩
    · rw [updateLast, if_neg hany] at hy
      by_cases hx : p x = true
      · rw [if_pos hx] at hy
        rcases List.mem_cons.mp hy with rfl | hmem
        · exact Or.inr ⟨x, List.mem_cons_self x xs, hx, rfl⟩
        · exact Or.inl (List.mem_cons_of_mem x hmem)
      · rw [if_neg hx] at hy
        exact Or.inl hy

theorem removeFirst_sublist (p : α → Bool) : ∀ l : List α, (removeFirst p l).Sublist l := by
  intro l
  induction l with
  | nil => simp [removeFirst]
  | cons x xs ih =>
    by_cases hx : p x = true
    · rw [removeFirst, if_pos hx]
      exact List.sublist_cons_self x xs
    · rw [removeFirst, if_neg hx]
      exact ih.cons₂ x

theorem mem_removeFirst_of_neg (p : α → Bool) (r : α) (hr : p r = false) :
    ∀ l : List α, r ∈ l → r ∈ removeFirst p l := by
  intro l
  induction l with
  | nil => intro h; cases h
  | cons x xs ih =>
    intro h
    by_cases hx : p x = true
    · rw [removeFirst, if_pos hx]
      rcases List.mem_cons.mp h with rfl | hmem
      · rw [hx] at hr; cases hr
      · exact hmem
    · rw [removeFirst, if_neg hx]
      rcases List.mem_cons.mp h with rfl | hmem
      · exact List.mem_cons_self _ _
      · exact List.mem_cons_of_mem x (ih hmem)

theorem removeFirst_drop (p : α → Bool) :
    ∀ (l : List α) (i : Nat) (hi : i < l.length), p l[i] = true →
      (removeFirst p l).drop i = l.drop (i + 1) := by
  intro l
  induction l with
  | nil => intro i hi; exact absurd hi (by simp)
  | cons x xs ih =>
    intro i hi hp
    by_cases hx : p x = true
    · rw [removeFirst, if_pos hx]
      rfl
    · rw [removeFirst, if_neg hx]
      cases i with
      | zero => exact absurd hp hx
      | succ i =>
        have hi' : i < xs.length := by simpa using hi
        have hp' : p xs[i] = true := by simpa using hp
        exact ih i hi' hp'

theorem removeFirst_length (p : α → Bool) :
    ∀ (l : List α) (a : α), a ∈ l → p a = true →
      (removeFirst p l).length + 1 = l.length := by
  intro l
  induction l with
  | nil => intro a ha; cases ha
  | cons x xs ih =>
    intro a ha hp
    by_cases hx : p x = true
    · rw [removeFirst, if_pos hx]
      rfl
    · rw [removeFirst, if_neg hx]
      rcases List.mem_cons.mp ha with rfl | hmem
      · exact absurd hp hx
      · simpa using ih a hmem hp

theorem mem_removeFirst_orderedKeys (resource r : Resource) :
    ∀ (l : List Resource), orderedKeys l →
      r ∈ l → r.inUse = true → r.deposed = false →
      resource ∈ l → (resource.inUse = false ∨ resource.deposed = true) →
      r ∈ removeFirst (resourceKeyMatches resource) l := by
  intro l
  induction l with
  | nil => intro _ hr; cases hr
  | cons x xs ih =>
    intro hOK hr hrin hrdep hres hbad
    have hOKx := (List.pairwise_cons.mp hOK).1
    have hOKxs := (List.pairwise_cons.mp hOK).2
    by_cases hx : resourceKeyMatches resource x = true
    · rw [removeFirst, if_pos hx]
      rcases List.mem_cons.mp hr with rfl | hmem
      · exfalso
        rcases List.mem_cons.mp hres with heq | hresm
        · rw [heq] at hbad
          rcases hbad with hb | hb
          · rw [hb] at hrin; cases hrin
          · rw [hb] at hrdep; cases hrdep
        · have := hOKx resource hresm hx
          rw [this] at hrdep; cases hrdep
      · exact hmem
    · rw [removeFirst, if_neg hx]
      rcases List.mem_cons.mp hres with heq | hresm
      · exfalso
        subst heq
        exact hx (resourceKeyMatches_self resource)
      · rcases List.mem_cons.mp hr with rfl | hmem
        · exact List.mem_cons_self _ _
        · exact List.mem_cons_of_mem x (ih hOKxs hmem hrin hrdep hresm hbad)

theorem find?_eq_of_first (p : α → Bool) :
    ∀ (l : List α) (j : Nat) (e : α), l[j]? = some e → p e = true →
      (∀ k, k < j → ∀ x, l[k]? = some x → p x = false) → l.find? p = some e := by
  intro l
  induction l with
  | nil => intro j e h; simp at h
  | cons x xs ih =>
    intro j e hj hp hfirst
    cases j with
    | zero =>
      obtain rfl : x = e := by simpa using hj
      rw [List.find?_cons_of_pos _ hp]
    | succ j =>
      have hx : p x = false := hfirst 0 (Nat.succ_pos j) x (by simp)
      rw [List.find?_cons_of_neg _ (by simp [hx])]
      exact ih j e (by simpa using hj) hp
        (fun k hk y hy => hfirst (k + 1) (Nat.succ_lt_succ hk) y (by simpa using hy))

theorem updateFirst_eq_set (p : α → Bool) (f : α → α) :
    ∀ (l : List α) (j : Nat) (e : α), l[j]? = some e → p e = true →
      (∀ k, k < j → ∀ x, l[k]? = some x → p x = false) →
      updateFirst p f l = l.set j (f e) := by
  intro l
  induction l with
  | nil => intro j e h; simp at h
  | cons x xs ih =>
    intro j e hj hp hfirst
    cases j with
    | zero =>
      obtain rfl : x = e := by simpa using hj
      rw [updateFirst, if_pos hp]
      rfl
    | succ j =>
      have hx : p x = false := hfirst 0 (Nat.succ_pos j) x (by simp)
      rw [updateFirst, if_neg (by simp [hx])]
      rw [ih j e (by simpa using hj) hp
        (fun k hk y hy => hfirst (k + 1) (Nat.succ_lt_succ hk) y (by simpa using hy))]
      rfl

theorem getElem?_some_lt {l : List α} {j : Nat} {e : α} (h : l[j]? = some e) :
    j < l.length := by
  by_contra hc
  rw [List.getElem?_eq_none (Nat.le_of_not_lt hc)] at h
  cases h

theorem distinct_types_ne (st : State) (hd : distinctProviderTypes st) {j k : Nat}
    {ps x : ProviderState} (hj : st.providers[j]? = some ps) (hk : st.providers[k]? = some x)
    (hkj : k ≠ j) : ¬ x.type = ps.type := by
  intro he
  have hjl : j < st.providers.length := getElem?_some_lt hj
  have hkl : k < st.providers.length := getElem?_some_lt hk
  have hjl' : j < (st.providers.map (fun p => p.type)).length := by simpa using hjl
  have hkl' : k < (st.providers.map (fun p => p.type)).length := by simpa using hkl
  have hje : st.providers[j] = ps := by
    rw [List.getElem?_eq_getElem hjl] at hj
    exact Option.some.inj hj
  have hke : st.providers[k] = x := by
    rw [List.getElem?_eq_getElem hkl] at hk
    exact Option.some.inj hk
  have heq : (st.providers.map (fun p => p.type))[k] = (st.providers.map (fun p => p.type))[j] := by
    simp only [List.getElem_map]
    rw [hje, hke, he]
  exact hkj ((List.Nodup.getElem_inj_iff hd).mp heq)

/-- For a well-typed removal from the unique matching entry: `RemoveResource`
rewrites exactly entry `j`, removing the first identity-key match. -/
theorem RemoveResource_set (st : State) (hd : distinctProviderTypes st) (j : Nat)
    (ps : ProviderState) (hj : st.providers[j]? = some ps) (resource : Resource)
    (hty : CredentialType.Provider resource.type = ps.type) :
    st.RemoveResource resource
      = { st with providers := st.providers.set j { ps with resources := removeFirst (resourceKeyMatches resource) ps.resources } } := by
  have hfirst : ∀ k, k < j → ∀ x, st.providers[k]? = some x →
      (decide (x.type = CredentialType.Provider resource.type)) = false := by
    intro k hk x hx
    simp only [decide_eq_false_iff_not]
    rw [hty]
    exact distinct_types_ne st hd hj hx (Nat.ne_of_lt hk)
  have hfind : st.providers.find? (fun provider => provider.type = CredentialType.Provider resource.type)
      = some ps := by
    apply find?_eq_of_first _ st.providers j ps hj (by simp [hty]) hfirst
  unfold State.RemoveResource State.getProviderState
  rw [hfind]
  dsimp only
  congr 1
  exact updateFirst_eq_set _ _ st.providers j ps hj (by simp [hty]) hfirst

theorem set_getElem?_self {l : List α} {j : Nat} {e : α} (h : l[j]? = some e) : l.set j e = l := by
  apply List.ext_getElem?
  intro k
  by_cases hk : k = j
  · subst hk
    rw [List.getElem?_set_self (by simpa using getElem?_some_lt h), h]
  · rw [List.getElem?_set_ne (fun he => hk he.symm)]

theorem resourceSweepLoop_entry (s : Sidecred) (j : Nat) :
    ∀ (i : Nat) (st : State) (ps : ProviderState),
      st.providers[j]? = some ps →
      distinctProviderTypes st →
      typeConsistent st →
      (lookupProvider s ps.type).isSome →
      i ≤ ps.resources.length →
      (∀ r ∈ ps.resources.drop i, r.inUse = true ∧ r.deposed = false) →
      ∃ rs', (resourceSweepLoop s j i st).1 = { st with providers := st.providers.set j { ps with resources := rs' } }
        ∧ rs'.Sublist ps.resources
        ∧ (∀ r ∈ rs', r.inUse = true ∧ r.deposed = false)
        ∧ (orderedKeys ps.resources →
            ∀ r ∈ ps.resources, r.inUse = true → r.deposed = false → r ∈ rs') := by
  intro i
  induction i with
  | zero =>
    intro st ps hj hd hc hreg hle hgood
    refine ⟨ps.resources, ?_, List.Sublist.refl _, by simpa using hgood,
      fun _ r hr _ _ => hr⟩
    have h1 : st.providers.set j ps = st.providers := set_getElem?_self hj
    show st = { st with providers := st.providers.set j ps }
    rw [h1]
  | succ i ih =>
    intro st ps hj hd hc hreg hle hgood
    have hi : i < ps.resources.length := hle
    have hres : ps.resources[i]? = some ps.resources[i] := List.getElem?_eq_getElem hi
    rw [resourceSweepLoop, hj]
    dsimp only
    rw [hres]
    dsimp only
    by_cases hgi : (ps.resources[i].inUse && !ps.resources[i].deposed) = true
    · rw [if_pos hgi]
      have hgood' : ∀ r ∈ ps.resources.drop i, r.inUse = true ∧ r.deposed = false := by
        intro r hr
        rw [List.drop_eq_getElem_cons hi] at hr
        rcases List.mem_cons.mp hr with rfl | hmem
        · simpa using hgi
        · exact hgood r hmem
      exact ih st ps hj hd hc hreg (Nat.le_of_lt hi) hgood'
    · rw [if_neg hgi]
      obtain ⟨impl, himpl⟩ := Option.isSome_iff_exists.mp hreg
      rw [himpl]
      dsimp only
      have hmem : ps.resources[i] ∈ ps.resources := List.getElem_mem hi
      have hpsmem : ps ∈ st.providers := List.getElem?_mem hj
      have hty : CredentialType.Provider ps.resources[i].type = ps.type :=
        hc ps hpsmem ps.resources[i] hmem
      have hrem := RemoveResource_set st hd j ps hj ps.resources[i] hty
      have hlj : j < st.providers.length := getElem?_some_lt hj
      have hj' : (st.RemoveResource ps.resources[i]).providers[j]?
          = some { ps with resources := removeFirst (resourceKeyMatches ps.resources[i]) ps.resources } := by
        rw [hrem]
        exact List.getElem?_set_self (by simpa using hlj)
      have hd' : distinctProviderTypes (st.RemoveResource ps.resources[i]) := by
        rw [hrem]
        unfold distinctProviderTypes at hd ⊢
        rw [List.map_set]
        have : (st.providers.map (fun p => p.type))[j]? = some ps.type := by
          simp [List.getElem?_map, hj]
        rw [set_getElem?_self this]
        exact hd
      have hc' : typeConsistent (st.RemoveResource ps.resources[i]) := by
        rw [hrem]
        intro p hp r hr
        rcases List.mem_or_eq_of_mem_set hp with hmemp | rfl
        · exact hc p hmemp r hr
        · exact hc ps hpsmem r ((removeFirst_sublist _ ps.resources).mem hr)
      have hle' : i ≤ (removeFirst (resourceKeyMatches ps.resources[i]) ps.resources).length := by
        have := removeFirst_length (resourceKeyMatches ps.resources[i]) ps.resources
          ps.resources[i] hmem (resourceKeyMatches_self _)
        omega
      have hgood' : ∀ r ∈ (removeFirst (resourceKeyMatches ps.resources[i]) ps.resources).drop i,
          r.inUse = true ∧ r.deposed = false := by
        rw [removeFirst_drop _ ps.resources i hi (resourceKeyMatches_self _)]
        exact hgood
      obtain ⟨rs', heq, hsub, hgoodr, hkeep⟩ :=
        ih (st.RemoveResource ps.resources[i])
          { ps with resources := removeFirst (resourceKeyMatches ps.resources[i]) ps.resources }
          hj' hd' hc' hreg hle' hgood'
      refine ⟨rs', ?_, hsub.trans (removeFirst_sublist _ ps.resources), hgoodr, ?_⟩
      · show (resourceSweepLoop s j i (st.RemoveResource ps.resources[i])).1 = _
        rw [heq, hrem]
        dsimp only
        rw [List.set_set]
      · intro hOK r hr hrin hrdep
        have hbad : ps.resources[i].inUse = false ∨ ps.resources[i].deposed = true := by
          rcases Bool.eq_false_or_eq_true ps.resources[i].inUse with h1 | h1
          · right
            by_contra h2
            simp only [Bool.not_eq_true] at h2
            exact hgi (by simp [h1, h2])
          · exact Or.inl h1
        have hrl' : r ∈ removeFirst (resourceKeyMatches ps.resources[i]) ps.resources :=
          mem_removeFirst_orderedKeys ps.resources[i] r ps.resources hOK hr hrin hrdep hmem hbad
        exact hkeep (hOK.sublist (removeFirst_sublist _ ps.resources)) r hrl' hrin hrdep

theorem resourceSweepLoop_unregistered (s : Sidecred) (j : Nat) :
    ∀ (i : Nat) (st : State) (ps : ProviderState),
      st.providers[j]? = some ps → lookupProvider s ps.type = none →
      resourceSweepLoop s j i st = (st, []) := by
  intro i
  induction i with
  | zero => intro st ps hj hreg; rfl
  | succ i ih =>
    intro st ps hj hreg
    rw [resourceSweepLoop, hj]
    dsimp only
    cases hres : ps.resources[i]? with
    | none => exact ih st ps hj hreg
    | some resource =>
      dsimp only
      by_cases hgi : (resource.inUse && !resource.deposed) = true
      · rw [if_pos hgi]
        exact ih st ps hj hreg
      · rw [if_neg hgi, hreg]
        exact ih st ps hj hreg

theorem resourceSweepLoop_allGood (s : Sidecred) (j : Nat) :
    ∀ (i : Nat) (st : State) (ps : ProviderState),
      st.providers[j]? = some ps →
      (∀ r ∈ ps.resources, r.inUse = true ∧ r.deposed = false) →
      resourceSweepLoop s j i st = (st, []) := by
  intro i
  induction i with
  | zero => intro st ps hj hgood; rfl
  | succ i ih =>
    intro st ps hj hgood
    rw [resourceSweepLoop, hj]
    dsimp only
    cases hres : ps.resources[i]? with
    | none => exact ih st ps hj hgood
    | some resource =>
      dsimp only
      have hr := hgood resource (List.getElem?_mem hres)
      rw [if_pos (by simp [hr.1, hr.2])]
      exact ih st ps hj hgood

theorem distinct_set (st : State) (hd : distinctProviderTypes st) (j : Nat) (ps : ProviderState)
    (hj : st.providers[j]? = some ps) (rs' : List Resource) :
    distinctProviderTypes { st with providers := st.providers.set j { ps with resources := rs' } } := by
  unfold distinctProviderTypes at hd ⊢
  dsimp only
  rw [List.map_set]
  have hty : (st.providers.map (fun p => p.type))[j]? = some ps.type := by
    simp [List.getElem?_map, hj]
  rw [set_getElem?_self hty]
  exact hd

theorem consistent_set (st : State) (hc : typeConsistent st) (j : Nat) (ps : ProviderState)
    (hj : st.providers[j]? = some ps) (rs' : List Resource) (hsub : rs'.Sublist ps.resources) :
    typeConsistent { st with providers := st.providers.set j { ps with resources := rs' } } := by
  intro p hp r hr
  rcases List.mem_or_eq_of_mem_set hp with hmemp | rfl
  · exact hc p hmemp r hr
  · exact hc ps (List.getElem?_mem hj) r (hsub.mem hr)

theorem resourceSweep_fold (s : Sidecred) :
    ∀ (js : List Nat) (st : State) (evs : List Event),
      distinctProviderTypes st → typeConsistent st →
      ∃ st' evs', js.foldl (resourceSweepStep s) (st, evs) = (st', evs')
        ∧ distinctProviderTypes st'
        ∧ typeConsistent st'
        ∧ st'.stores = st.stores
        ∧ st'.providers.length = st.providers.length
        ∧ (∀ k, k ∉ js → st'.providers[k]? = st.providers[k]?)
        ∧ (∀ k ∈ js, ∀ entry, st'.providers[k]? = some entry →
            (lookupProvider s entry.type).isSome = true →
            ∀ r ∈ entry.resources, r.inUse = true ∧ r.deposed = false)
        ∧ (∀ (k : Nat) (ps₀ entry : ProviderState), st.providers[k]? = some ps₀ →
            st'.providers[k]? = some entry →
            entry.type = ps₀.type ∧ entry.resources.Sublist ps₀.resources
            ∧ (orderedKeys ps₀.resources →
                ∀ r ∈ ps₀.resources, r.inUse = true → r.deposed = false → r ∈ entry.resources)) := by
  intro js
  induction js with
  | nil =>
    intro st evs hd hc
    refine ⟨st, evs, rfl, hd, hc, rfl, rfl, fun _ _ => rfl, by simp, ?_⟩
    intro k ps₀ entry h1 h2
    rw [h1] at h2
    obtain rfl : ps₀ = entry := Option.some.inj h2
    exact ⟨rfl, List.Sublist.refl _, fun _ r hr _ _ => hr⟩
  | cons j rest ih =>
    intro st evs hd hc
    simp only [List.foldl_cons]
    cases hj : st.providers[j]? with
    | none =>
      have hstep : resourceSweepStep s (st, evs) j = (st, evs) := by
        simp only [resourceSweepStep, hj]
      rw [hstep]
      obtain ⟨st', evs', heq, hd', hc', hstores, hlen, hunt, hgood, hkeep⟩ := ih st evs hd hc
      refine ⟨st', evs', heq, hd', hc', hstores, hlen, ?_, ?_, hkeep⟩
      · intro k hk
        exact hunt k (fun hmem => hk (List.mem_cons_of_mem j hmem))
      · intro k hk entry hentry hreg r hr
        rcases List.mem_cons.mp hk with rfl | hmem
        · by_cases hjr : k ∈ rest
          · exact hgood k hjr entry hentry hreg r hr
          · rw [hunt k hjr, hj] at hentry
            cases hentry
        · exact hgood k hmem entry hentry hreg r hr
    | some ps =>
      by_cases hreg : (lookupProvider s ps.type).isSome = true
      · obtain ⟨rs', hloop, hsub, hgoodr, hkeepr⟩ :=
          resourceSweepLoop_entry s j ps.resources.length st ps hj hd hc hreg
            (Nat.le_refl _) (by simp)
        have hstep : resourceSweepStep s (st, evs) j
            = ({ st with providers := st.providers.set j { ps with resources := rs' } },
               evs ++ (resourceSweepLoop s j ps.resources.length st).2) := by
          simp only [resourceSweepStep, hj]
          rw [hloop]
        rw [hstep]
        have hd₁ := distinct_set st hd j ps hj rs'
        have hc₁ := consistent_set st hc j ps hj rs' hsub
        obtain ⟨st', evs', heq, hd', hc', hstores, hlen, hunt, hgood, hkeep⟩ :=
          ih _ _ hd₁ hc₁
        have hlj : j < st.providers.length := getElem?_some_lt hj
        refine ⟨st', evs', heq, hd', hc', by rw [hstores], by rw [hlen]; simp, ?_, ?_, ?_⟩
        · intro k hk
          have hkj : ¬ k = j := fun he => hk (he ▸ List.mem_cons_self j rest)
          rw [hunt k (fun hmem => hk (List.mem_cons_of_mem j hmem))]
          dsimp only
          exact List.getElem?_set_ne (fun he => hkj he.symm)
        · intro k hk entry hentry hreg' r hr
          rcases List.mem_cons.mp hk with rfl | hmem
          · by_cases hjr : k ∈ rest
            · exact hgood k hjr entry hentry hreg' r hr
            · rw [hunt k hjr] at hentry
              dsimp only at hentry
              rw [List.getElem?_set_self (by simpa using hlj)] at hentry
              obtain rfl : ({ ps with resources := rs' } : ProviderState) = entry :=
                Option.some.inj hentry
              exact hgoodr r hr
          · exact hgood k hmem entry hentry hreg' r hr
        · intro k ps₀ entry h1 h2
          by_cases hkj : k = j
          · subst hkj
            obtain rfl : ps = ps₀ := Option.some.inj (hj ▸ h1)
            have h1' : ({ st with providers := st.providers.set k { ps with resources := rs' } } : State).providers[k]?
                = some { ps with resources := rs' } := by
              dsimp only
              exact List.getElem?_set_self (by simpa using hlj)
            obtain ⟨ht, hs, hk⟩ := hkeep k { ps with resources := rs' } entry h1' h2
            refine ⟨ht, hs.trans hsub, ?_⟩
            intro hOK r hr hrin hrdep
            exact hk (hOK.sublist hsub) r (hkeepr hOK r hr hrin hrdep) hrin hrdep
          · have h1' : ({ st with providers := st.providers.set j { ps with resources := rs' } } : State).providers[k]?
                = some ps₀ := by
              dsimp only
              rw [List.getElem?_set_ne (fun he => hkj he.symm)]
              exact h1
            exact hkeep k ps₀ entry h1' h2
      · have hnone : lookupProvider s ps.type = none := by
          rcases h : lookupProvider s ps.type with _ | v
          · rfl
          · rw [h] at hreg
            simp at hreg
        have hloop := resourceSweepLoop_unregistered s j ps.resources.length st ps hj hnone
        have hstep : resourceSweepStep s (st, evs) j = (st, evs ++ []) := by
          simp only [resourceSweepStep, hj]
          rw [hloop]
        rw [hstep]
        obtain ⟨st', evs', heq, hd', hc', hstores, hlen, hunt, hgood, hkeep⟩ := ih st (evs ++ []) hd hc
        refine ⟨st', evs', heq, hd', hc', hstores, hlen, ?_, ?_, hkeep⟩
        · intro k hk
          exact hunt k (fun hmem => hk (List.mem_cons_of_mem j hmem))
        · intro k hk entry hentry hreg' r hr
          rcases List.mem_cons.mp hk with rfl | hmem
          · by_cases hjr : k ∈ rest
            · exact hgood k hjr entry hentry hreg' r hr
            · rw [hunt k hjr, hj] at hentry
              obtain rfl : ps = entry := Option.some.inj hentry
              rw [hnone] at hreg'
              cases hreg'
          · exact hgood k hmem entry hentry hreg' r hr

theorem resourceSweep_spec (s : Sidecred) (st : State)
    (hd : distinctProviderTypes st) (hc : typeConsistent st) :
    distinctProviderTypes (resourceSweep s st).1
    ∧ typeConsistent (resourceSweep s st).1
    ∧ (resourceSweep s st).1.stores = st.stores
    ∧ (∀ entry ∈ (resourceSweep s st).1.providers,
        (lookupProvider s entry.type).isSome = true →
        ∀ r ∈ entry.resources, r.inUse = true ∧ r.deposed = false)
    ∧ (∀ (k : Nat) (ps₀ entry : ProviderState), st.providers[k]? = some ps₀ →
        (resourceSweep s st).1.providers[k]? = some entry →
        entry.type = ps₀.type ∧ entry.resources.Sublist ps₀.resources
        ∧ (orderedKeys ps₀.resources →
            ∀ r ∈ ps₀.resources, r.inUse = true → r.deposed = false → r ∈ entry.resources)) := by
  obtain ⟨st', evs', heq, hd', hc', hstores, hlen, hunt, hgood, hkeep⟩ :=
    resourceSweep_fold s (List.range st.providers.length) st [] hd hc
  have hsw : resourceSweep s st = (st', evs') := heq
  rw [hsw]
  refine ⟨hd', hc', hstores, ?_, hkeep⟩
  intro entry hentry hreg r hr
  obtain ⟨k, hk⟩ := List.mem_iff_getElem?.mp hentry
  have hklen : k < st.providers.length := by
    rw [← hlen]
    exact getElem?_some_lt hk
  exact hgood k (List.mem_range.mpr hklen) entry hk hreg r hr

theorem resourceSweep_identity (s : Sidecred) (st : State)
    (h : ∀ entry ∈ st.providers, lookupProvider s entry.type = none
        ∨ ∀ r ∈ entry.resources, r.inUse = true ∧ r.deposed = false) :
    resourceSweep s st = (st, []) := by
  unfold resourceSweep
  suffices haux : ∀ (js : List Nat) (evs : List Event),
      js.foldl (resourceSweepStep s) (st, evs) = (st, evs) from haux _ []
  intro js
  induction js with
  | nil => intro evs; rfl
  | cons j rest ih =>
    intro evs
    simp only [List.foldl_cons]
    cases hj : st.providers[j]? with
    | none =>
      have hstep : resourceSweepStep s (st, evs) j = (st, evs) := by
        simp only [resourceSweepStep, hj]
      rw [hstep]
      exact ih evs
    | some ps =>
      have hloop : resourceSweepLoop s j ps.resources.length st = (st, []) := by
        rcases h ps (List.getElem?_mem hj) with hnone | hgood
        · exact resourceSweepLoop_unregistered s j ps.resources.length st ps hj hnone
        · exact resourceSweepLoop_allGood s j ps.resources.length st ps hj hgood
      have hstep : resourceSweepStep s (st, evs) j = (st, evs) := by
        simp [resourceSweepStep, hj, hloop]
      rw [hstep]
      exact ih evs

theorem distinct_configs_ne (st : State) (hd : distinctStoreEntries st) {j k : Nat}
    {ss x : StoreState} (hj : st.stores[j]? = some ss) (hk : st.stores[k]? = some x)
    (hkj : k ≠ j) : ¬ x.storeConfig = ss.storeConfig := by
  intro he
  have hjl : j < st.stores.length := getElem?_some_lt hj
  have hkl : k < st.stores.length := getElem?_some_lt hk
  have hje : st.stores[j] = ss := by
    rw [List.getElem?_eq_getElem hjl] at hj
    exact Option.some.inj hj
  have hke : st.stores[k] = x := by
    rw [List.getElem?_eq_getElem hkl] at hk
    exact Option.some.inj hk
  have hjl' : j < (st.stores.map (fun e => e.storeConfig)).length := by simpa using hjl
  have hkl' : k < (st.stores.map (fun e => e.storeConfig)).length := by simpa using hkl
  have heq : (st.stores.map (fun e => e.storeConfig))[k] = (st.stores.map (fun e => e.storeConfig))[j] := by
    simp only [List.getElem_map]
    rw [hje, hke, he]
  exact hkj ((List.Nodup.getElem_inj_iff hd).mp heq)

theorem RemoveSecret_set (st : State) (hd : distinctStoreEntries st) (j : Nat)
    (ss : StoreState) (hj : st.stores[j]? = some ss) (secret : Secret) :
    st.RemoveSecret ss.storeConfig secret
      = { st with stores := st.stores.set j { ss with secrets := removeFirst (fun sec => sec.path = secret.path) ss.secrets } } := by
  have hfirst : ∀ k, k < j → ∀ x, st.stores[k]? = some x →
      (decide (x.storeConfig = ss.storeConfig)) = false := by
    intro k hk x hx
    simp only [decide_eq_false_iff_not]
    exact distinct_configs_ne st hd hj hx (Nat.ne_of_lt hk)
  have hfind : st.stores.find? (fun store => store.storeConfig = ss.storeConfig) = some ss :=
    find?_eq_of_first _ st.stores j ss hj (by simp) hfirst
  unfold State.RemoveSecret State.getSecretStoreState
  rw [hfind]
  dsimp only
  congr 1
  exact updateFirst_eq_set _ _ st.stores j ss hj (by simp) hfirst

theorem mem_removeFirst_path_ne (p : String) :
    ∀ (l : List Secret), (l.map (fun sec => sec.path)).Nodup →
      ∀ sec ∈ removeFirst (fun sec => sec.path = p) l, ¬ sec.path = p := by
  intro l
  induction l with
  | nil => intro _ sec h; cases h
  | cons x xs ih =>
    intro hnd sec hsec
    have hnd2 : (∀ y ∈ xs, ¬ y.path = x.path) ∧ (xs.map (fun sec => sec.path)).Nodup := by
      simpa using hnd
    by_cases hx : (decide (x.path = p)) = true
    · rw [removeFirst, if_pos hx] at hsec
      intro he
      have hxp : x.path = p := by simpa using hx
      exact hnd2.1 sec hsec (by rw [he, hxp])
    · rw [removeFirst, if_neg hx] at hsec
      rcases List.mem_cons.mp hsec with rfl | hmem
      · simpa using hx
      · exact ih hnd2.2 sec hmem

theorem getSecretStoreState_eq (st : State) (hd : distinctStoreEntries st) (j : Nat)
    (ss : StoreState) (hj : st.stores[j]? = some ss) :
    st.getSecretStoreState ss.storeConfig = some ss := by
  have hfirst : ∀ k, k < j → ∀ x, st.stores[k]? = some x →
      (decide (x.storeConfig = ss.storeConfig)) = false := by
    intro k hk x hx
    simp only [decide_eq_false_iff_not]
    exact distinct_configs_ne st hd hj hx (Nat.ne_of_lt hk)
  exact find?_eq_of_first _ st.stores j ss hj (by simp) hfirst

theorem ListOrphanedSecrets_entry (st : State) (hd : distinctStoreEntries st) (j : Nat)
    (ss : StoreState) (hj : st.stores[j]? = some ss) :
    st.ListOrphanedSecrets ss.storeConfig
      = ss.secrets.filter (fun sec =>
          ¬ ((st.providers.map (fun p => p.resources.map (fun r => r.id))).flatten.contains
              sec.resourceID)) := by
  unfold State.ListOrphanedSecrets
  rw [getSecretStoreState_eq st hd j ss hj]

theorem distinctStores_set (st : State) (hd : distinctStoreEntries st) (j : Nat)
    (ss : StoreState) (hj : st.stores[j]? = some ss) (secs' : List Secret) :
    distinctStoreEntries { st with stores := st.stores.set j { ss with secrets := secs' } } := by
  unfold distinctStoreEntries at hd ⊢
  dsimp only
  rw [List.map_set]
  have hcfg : (st.stores.map (fun e => e.storeConfig))[j]? = some ss.storeConfig := by
    simp [List.getElem?_map, hj]
  rw [set_getElem?_self hcfg]
  exact hd

theorem uniquePaths_set (st : State) (hu : uniqueSecretPaths st) (j : Nat)
    (ss : StoreState) (hj : st.stores[j]? = some ss) (secs' : List Secret)
    (hsub : secs'.Sublist ss.secrets) :
    uniqueSecretPaths { st with stores := st.stores.set j { ss with secrets := secs' } } := by
  intro e he
  rcases List.mem_or_eq_of_mem_set he with hmem | rfl
  · exact hu e hmem
  · exact (hu ss (List.getElem?_mem hj)).sublist (hsub.map _)

theorem orphanSweepLoop_entry (s : Sidecred) (j : Nat) (orphans : List Secret) (sc : StoreConfig) :
    ∀ (i : Nat) (st : State) (ss : StoreState),
      st.stores[j]? = some ss →
      sc = ss.storeConfig →
      distinctStoreEntries st →
      (ss.secrets.map (fun sec => sec.path)).Nodup →
      (lookupStore s sc.type).isSome = true →
      ∃ secs', (orphanSweepLoop s sc orphans i st).1 = { st with stores := st.stores.set j { ss with secrets := secs' } }
        ∧ secs'.Sublist ss.secrets
        ∧ (∀ sec ∈ secs', sec.path ∈ (orphans.take i).map (fun o => o.path) → False) := by
  intro i
  induction i with
  | zero =>
    intro st ss hj hsc hd hnd hreg
    refine ⟨ss.secrets, ?_, List.Sublist.refl _, by simp⟩
    have h1 : st.stores.set j ss = st.stores := set_getElem?_self hj
    show st = { st with stores := st.stores.set j ss }
    rw [h1]
  | succ i ih =>
    intro st ss hj hsc hd hnd hreg
    rw [orphanSweepLoop]
    cases ho : orphans[i]? with
    | none =>
      obtain ⟨secs', heq, hsub, hpath⟩ := ih st ss hj hsc hd hnd hreg
      have hlen : orphans.length ≤ i := by
        by_contra hcon
        rw [List.getElem?_eq_getElem (Nat.lt_of_not_le hcon)] at ho
        cases ho
      refine ⟨secs', heq, hsub, ?_⟩
      have htake : orphans.take (i + 1) = orphans.take i := by
        rw [List.take_of_length_le hlen, List.take_of_length_le (Nat.le_succ_of_le hlen)]
      rw [htake]
      exact hpath
    | some secret =>
      obtain ⟨impl, himpl⟩ := Option.isSome_iff_exists.mp hreg
      rw [himpl]
      dsimp only
      have hrem : st.RemoveSecret sc secret
          = { st with stores := st.stores.set j { ss with secrets := removeFirst (fun sec => sec.path = secret.path) ss.secrets } } := by
        rw [hsc]
        exact RemoveSecret_set st hd j ss hj secret
      have hlj : j < st.stores.length := getElem?_some_lt hj
      have hj' : (st.RemoveSecret sc secret).stores[j]?
          = some { ss with secrets := removeFirst (fun sec => sec.path = secret.path) ss.secrets } := by
        rw [hrem]
        exact List.getElem?_set_self (by simpa using hlj)
      have hd' : distinctStoreEntries (st.RemoveSecret sc secret) := by
        rw [hrem]
        exact distinctStores_set st hd j ss hj _
      have hnd' : ((removeFirst (fun sec => sec.path = secret.path) ss.secrets).map
          (fun sec => sec.path)).Nodup :=
        hnd.sublist ((removeFirst_sublist _ ss.secrets).map _)
      obtain ⟨secs', heq, hsub, hpath⟩ := ih (st.RemoveSecret sc secret)
        { ss with secrets := removeFirst (fun sec => sec.path = secret.path) ss.secrets }
        hj' hsc hd' hnd' hreg
      refine ⟨secs', ?_, hsub.trans (removeFirst_sublist _ ss.secrets), ?_⟩
      · show (orphanSweepLoop s sc orphans i (st.RemoveSecret sc secret)).1 = _
        rw [heq, hrem]
        dsimp only
        rw [List.set_set]
      · intro sec hsec hmem
        rw [List.take_succ, ho] at hmem
        simp only [List.map_append, List.mem_append, Option.toList_some, List.map_cons,
          List.map_nil, List.mem_singleton] at hmem
        rcases hmem with hmem | hmem
        · exact hpath sec hsec hmem
        · exact mem_removeFirst_path_ne secret.path ss.secrets hnd sec (hsub.mem hsec) hmem

theorem orphanSweepLoop_unregistered (s : Sidecred) (sc : StoreConfig) (orphans : List Secret)
    (hnone : lookupStore s sc.type = none) :
    ∀ (i : Nat) (st : State), orphanSweepLoop s sc orphans i st = (st, []) := by
  intro i
  induction i with
  | zero => intro st; rfl
  | succ i ih =>
    intro st
    rw [orphanSweepLoop]
    cases ho : orphans[i]? with
    | none => exact ih st
    | some secret =>
      rw [hnone]
      exact ih st

theorem orphanSweep_fold (s : Sidecred) :
    ∀ (js : List Nat) (st : State) (evs : List Event),
      distinctStoreEntries st → uniqueSecretPaths st →
      ∃ st' evs', js.foldl (orphanSweepStep s) (st, evs) = (st', evs')
        ∧ st'.providers = st.providers
        ∧ distinctStoreEntries st'
        ∧ uniqueSecretPaths st'
        ∧ (∀ k, k ∉ js → st'.stores[k]? = st.stores[k]?)
        ∧ (∀ (k : Nat) (ss₀ entry : StoreState), st.stores[k]? = some ss₀ →
            st'.stores[k]? = some entry →
            entry.storeConfig = ss₀.storeConfig ∧ entry.secrets.Sublist ss₀.secrets)
        ∧ (∀ k ∈ js, ∀ entry, st'.stores[k]? = some entry →
            (lookupStore s entry.storeConfig.type).isSome = true →
            ∀ sec ∈ entry.secrets,
              ((st.providers.map (fun p => p.resources.map (fun r => r.id))).flatten.contains
                sec.resourceID) = true) := by
  intro js
  induction js with
  | nil =>
    intro st evs hd hu
    refine ⟨st, evs, rfl, rfl, hd, hu, fun _ _ => rfl, ?_, by simp⟩
    intro k ss₀ entry h1 h2
    rw [h1] at h2
    obtain rfl : ss₀ = entry := Option.some.inj h2
    exact ⟨rfl, List.Sublist.refl _⟩
  | cons j rest ih =>
    intro st evs hd hu
    simp only [List.foldl_cons]
    cases hj : st.stores[j]? with
    | none =>
      have hstep : orphanSweepStep s (st, evs) j = (st, evs) := by
        simp only [orphanSweepStep, hj]
      rw [hstep]
      obtain ⟨st', evs', heq, hprov, hd', hu', hunt, hshr, horph⟩ := ih st evs hd hu
      refine ⟨st', evs', heq, hprov, hd', hu', ?_, hshr, ?_⟩
      · intro k hk
        exact hunt k (fun hmem => hk (List.mem_cons_of_mem j hmem))
      · intro k hk entry hentry hreg sec hsec
        rcases List.mem_cons.mp hk with rfl | hmem
        · by_cases hjr : k ∈ rest
          · exact horph k hjr entry hentry hreg sec hsec
          · rw [hunt k hjr, hj] at hentry
            cases hentry
        · exact horph k hmem entry hentry hreg sec hsec
    | some ss =>
      have horphans : st.ListOrphanedSecrets ss.storeConfig
          = ss.secrets.filter (fun sec =>
              ¬ ((st.providers.map (fun p => p.resources.map (fun r => r.id))).flatten.contains
                  sec.resourceID)) :=
        ListOrphanedSecrets_entry st hd j ss hj
      by_cases hreg : (lookupStore s ss.storeConfig.type).isSome = true
      · obtain ⟨secs', hloop, hsub, hpath⟩ :=
          orphanSweepLoop_entry s j (st.ListOrphanedSecrets ss.storeConfig) ss.storeConfig
            (st.ListOrphanedSecrets ss.storeConfig).length st ss hj rfl hd
            (hu ss (List.getElem?_mem hj)) hreg
        have hstep : orphanSweepStep s (st, evs) j
            = ({ st with stores := st.stores.set j { ss with secrets := secs' } },
               evs ++ (orphanSweepLoop s ss.storeConfig (st.ListOrphanedSecrets ss.storeConfig)
                 (st.ListOrphanedSecrets ss.storeConfig).length st).2) := by
          simp only [orphanSweepStep, hj]
          rw [hloop]
        rw [hstep]
        have hd₁ := distinctStores_set st hd j ss hj secs'
        have hu₁ := uniquePaths_set st hu j ss hj secs' hsub
        obtain ⟨st', evs', heq, hprov, hd', hu', hunt, hshr, horph⟩ := ih _ _ hd₁ hu₁
        have hlj : j < st.stores.length := getElem?_some_lt hj
        have hgoodsec : ∀ sec ∈ secs',
            ((st.providers.map (fun p => p.resources.map (fun r => r.id))).flatten.contains
              sec.resourceID) = true := by
          intro sec hsec
          by_contra hcon
          have hsecmem : sec ∈ st.ListOrphanedSecrets ss.storeConfig := by
            rw [horphans]
            exact List.mem_filter.mpr ⟨hsub.mem hsec, by simpa using hcon⟩
          exact hpath sec hsec
            (by
              rw [List.take_length]
              exact List.mem_map.mpr ⟨sec, hsecmem, rfl⟩)
        refine ⟨st', evs', heq, hprov, hd', hu', ?_, ?_, ?_⟩
        · intro k hk
          have hkj : ¬ k = j := fun he => hk (he ▸ List.mem_cons_self j rest)
          rw [hunt k (fun hmem => hk (List.mem_cons_of_mem j hmem))]
          dsimp only
          exact List.getElem?_set_ne (fun he => hkj he.symm)
        · intro k ss₀ entry h1 h2
          by_cases hkj : k = j
          · subst hkj
            obtain rfl : ss = ss₀ := Option.some.inj (hj ▸ h1)
            have h1' : ({ st with stores := st.stores.set k { ss with secrets := secs' } } : State).stores[k]?
                = some { ss with secrets := secs' } := by
              dsimp only
              exact List.getElem?_set_self (by simpa using hlj)
            obtain ⟨hcfg, hs⟩ := hshr k { ss with secrets := secs' } entry h1' h2
            exact ⟨hcfg, hs.trans hsub⟩
          · have h1' : ({ st with stores := st.stores.set j { ss with secrets := secs' } } : State).stores[k]?
                = some ss₀ := by
              dsimp only
              rw [List.getElem?_set_ne (fun he => hkj he.symm)]
              exact h1
            exact hshr k ss₀ entry h1' h2
        · intro k hk entry hentry hreg' sec hsec
          rcases List.mem_cons.mp hk with rfl | hmem
          · by_cases hjr : k ∈ rest
            · exact horph k hjr entry hentry hreg' sec hsec
            · rw [hunt k hjr] at hentry
              dsimp only at hentry
              rw [List.getElem?_set_self (by simpa using hlj)] at hentry
              obtain rfl : ({ ss with secrets := secs' } : StoreState) = entry :=
                Option.some.inj hentry
              exact hgoodsec sec hsec
          · exact horph k hmem entry hentry hreg' sec hsec
      · have hnone : lookupStore s ss.storeConfig.type = none := by
          rcases h : lookupStore s ss.storeConfig.type with _ | v
          · rfl
          · rw [h] at hreg
            simp at hreg
        have hloop := orphanSweepLoop_unregistered s ss.storeConfig
          (st.ListOrphanedSecrets ss.storeConfig) hnone
          (st.ListOrphanedSecrets ss.storeConfig).length st
        have hstep : orphanSweepStep s (st, evs) j = (st, evs ++ []) := by
          simp only [orphanSweepStep, hj]
          rw [hloop]
        rw [hstep]
        obtain ⟨st', evs', heq, hprov, hd', hu', hunt, hshr, horph⟩ := ih st (evs ++ []) hd hu
        refine ⟨st', evs', heq, hprov, hd', hu', ?_, hshr, ?_⟩
        · intro k hk
          exact hunt k (fun hmem => hk (List.mem_cons_of_mem j hmem))
        · intro k hk entry hentry hreg' sec hsec
          rcases List.mem_cons.mp hk with rfl | hmem
          · by_cases hjr : k ∈ rest
            · exact horph k hjr entry hentry hreg' sec hsec
            · rw [hunt k hjr, hj] at hentry
              obtain rfl : ss = entry := Option.some.inj hentry
              rw [hnone] at hreg'
              cases hreg'
          · exact horph k hmem entry hentry hreg' sec hsec

theorem orphanSweep_spec (s : Sidecred) (st : State)
    (hd : distinctStoreEntries st) (hu : uniqueSecretPaths st) :
    (orphanSweep s st).1.providers = st.providers
    ∧ (∀ entry ∈ (orphanSweep s st).1.stores,
        (lookupStore s entry.storeConfig.type).isSome = true →
        ∀ sec ∈ entry.secrets,
          ((st.providers.map (fun p => p.resources.map (fun r => r.id))).flatten.contains
            sec.resourceID) = true) := by
  obtain ⟨st', evs', heq, hprov, hd', hu', hunt, hshr, horph⟩ :=
    orphanSweep_fold s (List.range st.stores.length) st [] hd hu
  have hsw : orphanSweep s st = (st', evs') := heq
  rw [hsw]
  refine ⟨hprov, ?_⟩
  intro entry hentry hreg sec hsec
  obtain ⟨k, hk⟩ := List.mem_iff_getElem?.mp hentry
  by_cases hklen : k < st.stores.length
  · exact horph k (List.mem_range.mpr hklen) entry hk hreg sec hsec
  · exfalso
    rw [hunt k (fun hmem => hklen (List.mem_range.mp hmem))] at hk
    rw [List.getElem?_eq_none (Nat.le_of_not_lt hklen)] at hk
    cases hk

theorem orphanSweep_identity (s : Sidecred) (st : State)
    (h : ∀ entry ∈ st.stores, (lookupStore s entry.storeConfig.type).isSome = true →
        st.ListOrphanedSecrets entry.storeConfig = []) :
    orphanSweep s st = (st, []) := by
  unfold orphanSweep
  suffices haux : ∀ (js : List Nat) (evs : List Event),
      js.foldl (orphanSweepStep s) (st, evs) = (st, evs) from haux _ []
  intro js
  induction js with
  | nil => intro evs; rfl
  | cons j rest ih =>
    intro evs
    simp only [List.foldl_cons]
    cases hj : st.stores[j]? with
    | none =>
      have hstep : orphanSweepStep s (st, evs) j = (st, evs) := by
        simp only [orphanSweepStep, hj]
      rw [hstep]
      exact ih evs
    | some ss =>
      by_cases hreg : (lookupStore s ss.storeConfig.type).isSome = true
      · have hempt := h ss (List.getElem?_mem hj) hreg
        have hstep : orphanSweepStep s (st, evs) j = (st, evs) := by
          simp only [orphanSweepStep, hj, hempt]
          show ((st, []).1, evs ++ (st, ([] : List Event)).2) = (st, evs)
          simp
        rw [hstep]
        exact ih evs
      · have hnone : lookupStore s ss.storeConfig.type = none := by
          rcases hcs : lookupStore s ss.storeConfig.type with _ | v
          · rfl
          · rw [hcs] at hreg
            simp at hreg
        have hloop := orphanSweepLoop_unregistered s ss.storeConfig
          (st.ListOrphanedSecrets ss.storeConfig) hnone
          (st.ListOrphanedSecrets ss.storeConfig).length st
        have hstep : orphanSweepStep s (st, evs) j = (st, evs) := by
          simp [orphanSweepStep, hj, hloop]
        rw [hstep]
        exact ih evs

theorem updateLast_map (p : α → Bool) (g : α → α) (f : α → β) (l : List α)
    (h : ∀ a, f (g a) = f a) : (updateLast p g l).map f = l.map f := by
  induction l with
  | nil => rfl
  | cons x xs ih =>
    by_cases hany : xs.any p = true
    · rw [updateLast, if_pos hany]
      simp [ih]
    · rw [updateLast, if_neg hany]
      by_cases hx : p x = true
      · rw [if_pos hx]
        simp [h]
      · rw [if_neg hx]

theorem updateFirst_map_of (p : α → Bool) (g : α → α) (f : α → β) (l : List α)
    (h : ∀ a, p a = true → f (g a) = f a) : (updateFirst p g l).map f = l.map f := by
  induction l with
  | nil => rfl
  | cons x xs ih =>
    by_cases hx : p x = true
    · rw [updateFirst, if_pos hx]
      simp [h x hx]
    · rw [updateFirst, if_neg hx]
      simp [ih]

theorem mark_preserves_fields (t : CredentialType) (id store : String) (r : Resource) :
    (if resourceMatches t id store r then { r with inUse := true } else r).type = r.type
    ∧ (if resourceMatches t id store r then { r with inUse := true } else r).store = r.store
    ∧ (if resourceMatches t id store r then { r with inUse := true } else r).id = r.id
    ∧ (if resourceMatches t id store r then { r with inUse := true } else r).deposed = r.deposed := by
  split <;> exact ⟨rfl, rfl, rfl, rfl⟩

theorem keyMatches_mark (t : CredentialType) (id store : String) (a b : Resource) :
    resourceKeyMatches (if resourceMatches t id store b then { b with inUse := true } else b)
        (if resourceMatches t id store a then { a with inUse := true } else a)
      = resourceKeyMatches b a := by
  cases hb : resourceMatches t id store b <;>
    cases ha : resourceMatches t id store a <;>
      simp [hb, ha, resourceKeyMatches]

theorem GetResourcesByID_inv (st : State) (t : CredentialType) (id store : String)
    (h : StateInv st) : StateInv (st.GetResourcesByID t id store).2 := by
  obtain ⟨hd, hc, ho, hds, hu⟩ := h
  unfold State.GetResourcesByID
  cases hg : st.getProviderState (CredentialType.Provider t) with
  | none => exact ⟨hd, hc, ho, hds, hu⟩
  | some p =>
    dsimp only
    refine ⟨?_, ?_, ?_, hds, hu⟩
    · unfold distinctProviderTypes at hd ⊢
      dsimp only
      rw [updateFirst_map _ _ _ _ (by intro a; rfl)]
      exact hd
    · intro q hq r hr
      rcases updateFirst_mem _ _ st.providers q hq with hmem | ⟨e, he, _, rfl⟩
      · exact hc q hmem r hr
      · dsimp only at hr
        rcases List.mem_map.mp hr with ⟨r₀, hr₀, rfl⟩
        have := hc e he r₀ hr₀
        rw [← this]
        congr 1
        exact (mark_preserves_fields t id store r₀).1
    · intro q hq
      rcases updateFirst_mem _ _ st.providers q hq with hmem | ⟨e, he, _, rfl⟩
      · exact ho q hmem
      · dsimp only
        refine List.Pairwise.map _ (fun a b hab => ?_) (ho e he)
        intro hm
        rw [keyMatches_mark t id store a b] at hm
        rw [(mark_preserves_fields t id store a).2.2.2]
        exact hab hm

theorem orderedKeys_depose_append (res : Resource) (l : List Resource) (hl : orderedKeys l) :
    orderedKeys ((l.map fun x => if resourceKeyMatches res x then { x with deposed := true } else x)
      ++ [res]) := by
  rw [orderedKeys, List.pairwise_append]
  refine ⟨?_, by simp, ?_⟩
  · refine List.Pairwise.map _ (fun a b hab => ?_) hl
    intro hm
    rw [keyMatches_depose_image₂ res a b] at hm
    exact deposed_depose_image res a (hab hm)
  · intro a ha b hb hm
    rcases List.mem_singleton.mp hb with rfl
    rcases List.mem_map.mp ha with ⟨x, hx, rfl⟩
    rw [keyMatches_depose_image b x] at hm
    simp [hm]

theorem AddResource_inv (st : State) (res : Resource) (h : StateInv st) :
    StateInv (st.AddResource res) := by
  obtain ⟨hd, hc, ho, hds, hu⟩ := h
  unfold State.AddResource
  dsimp only
  by_cases hany : (st.providers.any fun provider => provider.type = CredentialType.Provider res.type)
      = true
  · rw [if_pos hany]
    refine ⟨?_, ?_, ?_, hds, hu⟩
    · unfold distinctProviderTypes at hd ⊢
      dsimp only
      rw [updateLast_map _ _ _ _ (by intro a; rfl)]
      exact hd
    · intro q hq r hr
      rcases updateLast_mem _ _ st.providers q hq with hmem | ⟨e, he, hpe, rfl⟩
      · exact hc q hmem r hr
      · dsimp only at hr ⊢
        have hety : e.type = CredentialType.Provider res.type := by simpa using hpe
        rcases List.mem_append.mp hr with hmem | hmem
        · rcases List.mem_map.mp hmem with ⟨r₀, hr₀, rfl⟩
          have hcr := hc e he r₀ hr₀
          rw [← hcr]
          congr 1
          split <;> rfl
        · rcases List.mem_singleton.mp hmem with rfl
          rw [hety]
    · intro q hq
      rcases updateLast_mem _ _ st.providers q hq with hmem | ⟨e, he, hpe, rfl⟩
      · exact ho q hmem
      · exact orderedKeys_depose_append res e.resources (ho e he)
  · rw [if_neg hany]
    have hnot : ∀ e ∈ st.providers, ¬ e.type = CredentialType.Provider res.type := by
      intro e he
      have := List.any_eq_false.mp (Bool.not_eq_true _ ▸ hany) e he
      simpa using this
    refine ⟨?_, ?_, ?_, hds, hu⟩
    · unfold distinctProviderTypes at hd ⊢
      dsimp only
      rw [List.map_append]
      refine List.Nodup.append hd (by simp) ?_
      intro ty hty1 hty2
      simp only [List.map_cons, List.map_nil, List.mem_singleton] at hty2
      rcases List.mem_map.mp hty1 with ⟨e, he, rfl⟩
      exact hnot e he hty2
    · intro q hq r hr
      rcases List.mem_append.mp hq with hmem | hmem
      · exact hc q hmem r hr
      · rcases List.mem_singleton.mp hmem with rfl
        rcases List.mem_singleton.mp hr with rfl
        rfl
    · intro q hq
      rcases List.mem_append.mp hq with hmem | hmem
      · exact ho q hmem
      · rcases List.mem_singleton.mp hmem with rfl
        simp [orderedKeys]

theorem AddSecret_inv (st : State) (c : StoreConfig) (secret : Secret) (h : StateInv st) :
    StateInv (st.AddSecret c secret) := by
  obtain ⟨hd, hc, ho, hds, hu⟩ := h
  unfold State.AddSecret
  dsimp only
  by_cases hany : (st.stores.any fun store => store.storeConfig = c) = true
  · rw [if_pos hany]
    refine ⟨hd, hc, ho, ?_, ?_⟩
    · unfold distinctStoreEntries at hds ⊢
      dsimp only
      rw [updateFirst_map _ _ _ _ (by intro a; rfl)]
      exact hds
    · intro e he
      rcases updateFirst_mem _ _ st.stores e he with hmem | ⟨e₀, he₀, hpe, rfl⟩
      · exact hu e hmem
      · dsimp only
        by_cases hpath : (e₀.secrets.any fun sec => sec.path = secret.path) = true
        · rw [if_pos hpath]
          rw [updateFirst_map_of _ _ _ _ ?_]
          · exact hu e₀ he₀
          · intro a ha
            have : a.path = secret.path := by simpa using ha
            rw [this]
        · rw [if_neg hpath]
          rw [List.map_append]
          refine List.Nodup.append (hu e₀ he₀) (by simp) ?_
          intro pth hp1 hp2
          simp only [List.map_cons, List.map_nil, List.mem_singleton] at hp2
          rcases List.mem_map.mp hp1 with ⟨sec, hsec, rfl⟩
          have := List.any_eq_false.mp (Bool.not_eq_true _ ▸ hpath) sec hsec
          simp at this
          exact this hp2
  · rw [if_neg hany]
    have hnot : ∀ e ∈ st.stores, ¬ e.storeConfig = c := by
      intro e he
      have := List.any_eq_false.mp (Bool.not_eq_true _ ▸ hany) e he
      simpa using this
    refine ⟨hd, hc, ho, ?_, ?_⟩
    · unfold distinctStoreEntries at hds ⊢
      dsimp only
      rw [List.map_append]
      refine List.Nodup.append hds (by simp) ?_
      intro cfg hc1 hc2
      simp only [List.map_cons, List.map_nil, List.mem_singleton] at hc2
      rcases List.mem_map.mp hc1 with ⟨e, he, rfl⟩
      exact hnot e he hc2
    · intro e he
      rcases List.mem_append.mp he with hmem | hmem
      · exact hu e hmem
      · rcases List.mem_singleton.mp hmem with rfl
        simp

theorem writeCredsLoop_inv (write : StoreWrite) (ns : String) (sc : StoreConfig)
    (resourceID : String) :
    ∀ (creds : List Credential) (st : State), StateInv st →
      StateInv (writeCredsLoop write ns sc resourceID creds st).1 := by
  intro creds
  induction creds with
  | nil => intro st h; exact h
  | cons c creds ih =>
    intro st h
    rw [writeCredsLoop]
    cases hw : write ns c sc.config with
    | none => exact ih st h
    | some path => exact ih _ (AddSecret_inv _ _ _ h)

theorem processCredential_inv (s : Sidecred) (now : Int) (ns : String) (sc : StoreConfig)
    (write : StoreWrite) (r : CredentialRequest) (st : State) (h : StateInv st) :
    StateInv (processCredential s now ns sc write r st).1 := by
  unfold processCredential
  by_cases hname : r.name = ""
  · rw [if_pos hname]
    exact h
  · rw [if_neg hname]
    cases hp : lookupProvider s (CredentialType.Provider r.type) with
    | none => exact h
    | some create =>
      dsimp only
      have h₁ := GetResourcesByID_inv st r.type r.name (StoreConfig.Alias sc) h
      by_cases hv : ((st.GetResourcesByID r.type r.name (StoreConfig.Alias sc)).1.any
          (fun resource => r.hasValidCredentials resource s.rotationWindow now)) = true
      · rw [if_pos hv]
        exact h₁
      · rw [if_neg hv]
        cases hcr : create r with
        | none => exact h₁
        | some result =>
          obtain ⟨creds, metadata⟩ := result
          cases creds with
          | nil => exact h₁
          | cons c0 rest =>
            dsimp only
            exact writeCredsLoop_inv _ _ _ _ _ _ (AddResource_inv _ _ h₁)

theorem processCredentials_inv (s : Sidecred) (now : Int) (ns : String) (sc : StoreConfig)
    (write : StoreWrite) :
    ∀ (rs : List CredentialRequest) (st : State), StateInv st →
      StateInv (processCredentials s now ns sc write rs st).1 := by
  intro rs
  induction rs with
  | nil => intro st h; exact h
  | cons r rs ih =>
    intro st h
    rw [processCredentials]
    exact ih _ (processCredential_inv s now ns sc write r st h)

theorem processRequest_inv (s : Sidecred) (now : Int) (cfg : Config) (request : CredentialsMap)
    (st : State) (h : StateInv st) : StateInv (processRequest s now cfg request st).1 := by
  unfold processRequest
  cases hf : findStoreConfig cfg.stores request.store with
  | none => exact h
  | some storeConfig =>
    dsimp only
    cases hl : lookupStore s storeConfig.type with
    | none => exact h
    | some write => exact processCredentials_inv s now cfg.ns storeConfig write request.credentials st h

theorem processRequests_inv (s : Sidecred) (now : Int) (cfg : Config) :
    ∀ (requests : List CredentialsMap) (st : State), StateInv st →
      StateInv (processRequests s now cfg requests st).1 := by
  intro requests
  induction requests with
  | nil => intro st h; exact h
  | cons request rest ih =>
    intro st h
    rw [processRequests]
    exact ih _ (processRequest_inv s now cfg request st h)

theorem stateInv_NewState : StateInv NewState := by
  unfold StateInv distinctProviderTypes typeConsistent distinctStoreEntries uniqueSecretPaths NewState
  simp

/-- C2 (counterexample): a deposed resource survives a successful `Process`
run when its provider type is not registered — the sweep logs and leaves the
row. Here the state holds a deposed `aws` resource and no `aws` provider is
registered; `Process` succeeds and the deposed resource remains. -/
theorem process_keeps_deposed_counterexample :
    emptySidecred.Process 0 emptyConfig deposedState = Except.ok (deposedState, [])
    ∧ (deposedState.providers.any fun e => e.resources.any fun r => r.deposed) = true :=
  ⟨rfl, by decide⟩

/-- C2 (amended): for every config and well-formed state on which `Process`
succeeds, every provider entry whose type has a registered provider contains
only resources that are `InUse` and not `Deposed` in the output state; the
resource sweep skips an entry (with a warning) exactly when its provider
type is not in the provider registry, and such entries may retain deposed
or unused resources. -/
theorem process_no_deposed_in_registered_entries (s : Sidecred) (now : Int) (cfg : Config)
    (st st' : State) (evs : List Event)
    (hrun : s.Process now cfg st = Except.ok (st', evs))
    (hinv : StateInv st) :
    ∀ entry ∈ st'.providers, (lookupProvider s entry.type).isSome = true →
      ∀ r ∈ entry.resources, r.inUse = true ∧ r.deposed = false := by
  unfold Sidecred.Process at hrun
  cases hval : cfg.validateErr with
  | some e => rw [hval] at hrun; cases hrun
  | none =>
    rw [hval] at hrun
    dsimp only at hrun
    obtain ⟨hd₁, hc₁, ho₁, hds₁, hu₁⟩ :=
      processRequests_inv s now cfg cfg.requests st hinv
    obtain ⟨hd₂, hc₂, hstores₂, hgood₂, hkeep₂⟩ :=
      resourceSweep_spec s (processRequests s now cfg cfg.requests st).1 hd₁ hc₁
    have hds₂ : distinctStoreEntries (resourceSweep s (processRequests s now cfg cfg.requests st).1).1 := by
      unfold distinctStoreEntries at hds₁ ⊢
      rw [hstores₂]
      exact hds₁
    have hu₂ : uniqueSecretPaths (resourceSweep s (processRequests s now cfg cfg.requests st).1).1 := by
      intro e he
      rw [hstores₂] at he
      exact hu₁ e he
    obtain ⟨hprov₃, _⟩ :=
      orphanSweep_spec s (resourceSweep s (processRequests s now cfg cfg.requests st).1).1 hds₂ hu₂
    have hpair := Except.ok.inj hrun
    have hst' : st' = (orphanSweep s (resourceSweep s (processRequests s now cfg cfg.requests st).1).1).1 :=
      (congrArg Prod.fst hpair).symm
    intro entry hentry hreg r hr
    rw [hst', hprov₃] at hentry
    exact hgood₂ entry hentry hreg r hr

/-- Witness for `process_no_deposed_in_registered_entries` at a concrete
input: a run from the empty state over a one-request config saves a state
whose registered entries hold only in-use, non-deposed resources. -/
theorem process_no_deposed_in_registered_entries_witness :
    (wSt1.providers.all fun entry =>
      !(lookupProvider exSidecred entry.type).isSome
        || entry.resources.all fun r => r.inUse && !r.deposed) = true := by
  have h := process_no_deposed_in_registered_entries exSidecred 0 wConfig NewState wSt1 wEvs
    (by rfl) stateInv_NewState
  rw [List.all_eq_true]
  intro entry hentry
  show (!(lookupProvider exSidecred entry.type).isSome
      || entry.resources.all fun r => r.inUse && !r.deposed) = true
  cases hx : (lookupProvider exSidecred entry.type).isSome with
  | false => rfl
  | true =>
    have hall := h entry hentry hx
    rw [Bool.not_true, Bool.false_or, List.all_eq_true]
    intro r hr
    obtain ⟨h1, h2⟩ := hall r hr
    show (r.inUse && !r.deposed) = true
    rw [h1, h2]
    rfl

/-- C3 (counterexample): an orphaned secret survives a successful `Process`
run when its store type is not registered — the sweep logs and skips it.
Here the state holds a secret whose `ResourceID` matches no resource, the
store registry is empty, and the secret remains after a successful run. -/
theorem process_keeps_orphan_counterexample :
    emptySidecred.Process 0 emptyConfig orphanState = Except.ok (orphanState, [])
    ∧ (orphanState.stores.any fun e => e.secrets.any fun sec =>
        ¬ (orphanState.providers.any fun p => p.resources.any fun r => r.id = sec.resourceID)) = true :=
  ⟨rfl, by decide⟩

/-- C3 (amended): for every config and well-formed state on which `Process`
succeeds, every secret remaining in a store entry whose store type has a
registered store has a `ResourceID` equal to the ID of some resource in some
provider entry of the output state (orphaned secrets of unregistered store
types are logged and left in place). -/
theorem process_no_orphans_in_registered_entries (s : Sidecred) (now : Int) (cfg : Config)
    (st st' : State) (evs : List Event)
    (hrun : s.Process now cfg st = Except.ok (st', evs))
    (hinv : StateInv st) :
    ∀ entry ∈ st'.stores, (lookupStore s entry.storeConfig.type).isSome = true →
      ∀ sec ∈ entry.secrets, ∃ p ∈ st'.providers, ∃ r ∈ p.resources, r.id = sec.resourceID := by
  unfold Sidecred.Process at hrun
  cases hval : cfg.validateErr with
  | some e => rw [hval] at hrun; cases hrun
  | none =>
    rw [hval] at hrun
    dsimp only at hrun
    obtain ⟨hd₁, hc₁, ho₁, hds₁, hu₁⟩ :=
      processRequests_inv s now cfg cfg.requests st hinv
    obtain ⟨hd₂, hc₂, hstores₂, hgood₂, hkeep₂⟩ :=
      resourceSweep_spec s (processRequests s now cfg cfg.requests st).1 hd₁ hc₁
    have hds₂ : distinctStoreEntries (resourceSweep s (processRequests s now cfg cfg.requests st).1).1 := by
      unfold distinctStoreEntries at hds₁ ⊢
      rw [hstores₂]
      exact hds₁
    have hu₂ : uniqueSecretPaths (resourceSweep s (processRequests s now cfg cfg.requests st).1).1 := by
      intro e he
      rw [hstores₂] at he
      exact hu₁ e he
    obtain ⟨hprov₃, horph₃⟩ :=
      orphanSweep_spec s (resourceSweep s (processRequests s now cfg cfg.requests st).1).1 hds₂ hu₂
    have hpair := Except.ok.inj hrun
    have hst' : st' = (orphanSweep s (resourceSweep s (processRequests s now cfg cfg.requests st).1).1).1 :=
      (congrArg Prod.fst hpair).symm
    intro entry hentry hreg sec hsec
    rw [hst'] at hentry
    have hcontains := horph₃ entry hentry hreg sec hsec
    rw [hst', hprov₃]
    have hmem : sec.resourceID ∈
        ((resourceSweep s (processRequests s now cfg cfg.requests st).1).1.providers.map
          (fun p => p.resources.map (fun r => r.id))).flatten := by
      rw [← List.elem_iff]
      exact hcontains
    rw [List.mem_flatten] at hmem
    obtain ⟨ids, hids, hid⟩ := hmem
    rw [List.mem_map] at hids
    obtain ⟨p, hp, rfl⟩ := hids
    rw [List.mem_map] at hid
    obtain ⟨r, hr, hrid⟩ := hid
    exact ⟨p, hp, r, hr, hrid⟩

/-- Witness for `process_no_orphans_in_registered_entries` at a concrete
input: after a run from the empty state over a one-request config, every
secret of the saved state (whose store is registered) names a live
resource. -/
theorem process_no_orphans_in_registered_entries_witness :
    (wSt1.stores.all fun entry =>
      !(lookupStore exSidecred entry.storeConfig.type).isSome
        || entry.secrets.all fun sec =>
          wSt1.providers.any fun p => p.resources.any fun r => r.id = sec.resourceID) = true := by
  have h := process_no_orphans_in_registered_entries exSidecred 0 wConfig NewState wSt1 wEvs
    (by rfl) stateInv_NewState
  rw [List.all_eq_true]
  intro entry hentry
  show (!(lookupStore exSidecred entry.storeConfig.type).isSome
      || entry.secrets.all fun sec =>
        wSt1.providers.any fun p => p.resources.any fun r => r.id = sec.resourceID) = true
  cases hx : (lookupStore exSidecred entry.storeConfig.type).isSome with
  | false => rfl
  | true =>
    have hall := h entry hentry hx
    rw [Bool.not_true, Bool.false_or, List.all_eq_true]
    intro sec hsec
    obtain ⟨p, hp, r, hr, hrid⟩ := hall sec hsec
    show (wSt1.providers.any fun p => p.resources.any fun r => r.id = sec.resourceID) = true
    refine List.any_eq_true.mpr ⟨p, hp, ?_⟩
    exact List.any_eq_true.mpr ⟨r, hr, by simp [hrid]⟩

theorem updateFirst_id (p : α → Bool) (f : α → α) :
    ∀ l : List α, (∀ a ∈ l, p a = true → f a = a) → updateFirst p f l = l := by
  intro l
  induction l with
  | nil => intro _; rfl
  | cons x xs ih =>
    intro h
    by_cases hx : p x = true
    · rw [updateFirst, if_pos hx, h x (List.mem_cons_self _ _) hx]
    · rw [updateFirst, if_neg hx, ih (fun a ha hpa => h a (List.mem_cons_of_mem x ha) hpa)]

theorem find?_some_index (p : α → Bool) :
    ∀ (l : List α) (e : α), l.find? p = some e →
      ∃ (k : Nat), l[k]? = some e ∧ p e = true
        ∧ ∀ i, i < k → ∀ x, l[i]? = some x → p x = false := by
  intro l
  induction l with
  | nil => intro e h; simp at h
  | cons x xs ih =>
    intro e h
    by_cases hx : p x = true
    · rw [List.find?_cons_of_pos _ hx] at h
      obtain rfl : x = e := Option.some.inj h
      refine ⟨0, by simp, hx, ?_⟩
      intro i hi y _
      exact absurd hi (Nat.not_lt_zero i)
    · rw [List.find?_cons_of_neg _ (by simp [hx])] at h
      obtain ⟨k, hk, hpe, hfirst⟩ := ih e h
      refine ⟨k + 1, by simpa using hk, hpe, ?_⟩
      intro i hi y hy
      cases i with
      | zero =>
        obtain rfl : x = y := by simpa using hy
        exact Bool.eq_false_iff.mpr hx
      | succ i => exact hfirst i (by omega) y (by simpa using hy)

theorem updateFirst_getElem? (p : α → Bool) (f : α → α) :
    ∀ (l : List α) (k : Nat),
      (updateFirst p f l)[k]? = l[k]?
      ∨ ∃ e, l[k]? = some e ∧ p e = true ∧ (updateFirst p f l)[k]? = some (f e) := by
  intro l
  induction l with
  | nil => intro k; exact Or.inl rfl
  | cons x xs ih =>
    intro k
    by_cases hx : p x = true
    · rw [updateFirst, if_pos hx]
      cases k with
      | zero => exact Or.inr ⟨x, by simp, hx, by simp⟩
      | succ k => exact Or.inl (by simp)
    · rw [updateFirst, if_neg hx]
      cases k with
      | zero => exact Or.inl (by simp)
      | succ k =>
        rcases ih k with h | ⟨e, he, hpe, he'⟩
        · exact Or.inl (by simpa using h)
        · exact Or.inr ⟨e, by simpa using he, hpe, by simpa using he'⟩

theorem updateLast_getElem? (p : α → Bool) (f : α → α) :
    ∀ (l : List α) (k : Nat),
      (updateLast p f l)[k]? = l[k]?
      ∨ ∃ e, l[k]? = some e ∧ p e = true ∧ (updateLast p f l)[k]? = some (f e) := by
  intro l
  induction l with
  | nil => intro k; exact Or.inl rfl
  | cons x xs ih =>
    intro k
    by_cases hany : xs.any p = true
    · rw [updateLast, if_pos hany]
      cases k with
      | zero => exact Or.inl (by simp)
      | succ k =>
        rcases ih k with h | ⟨e, he, hpe, he'⟩
        · exact Or.inl (by simpa using h)
        · exact Or.inr ⟨e, by simpa using he, hpe, by simpa using he'⟩
    · rw [updateLast, if_neg hany]
      by_cases hx : p x = true
      · rw [if_pos hx]
        cases k with
        | zero => exact Or.inr ⟨x, by simp, hx, by simp⟩
        | succ k => exact Or.inl (by simp)
      · rw [if_neg hx]
        exact Or.inl rfl

theorem updateLast_exists (p : α → Bool) (f : α → α) :
    ∀ l : List α, l.any p = true →
      ∃ (k : Nat) (e : α), l[k]? = some e ∧ p e = true ∧ (updateLast p f l)[k]? = some (f e) := by
  intro l
  induction l with
  | nil => intro h; simp at h
  | cons x xs ih =>
    intro h
    by_cases hany : xs.any p = true
    · obtain ⟨k, e, hk, hpe, hk'⟩ := ih hany
      rw [updateLast, if_pos hany]
      exact ⟨k + 1, e, by simpa using hk, hpe, by simpa using hk'⟩
    · have hx : p x = true := by
        rcases List.any_eq_true.mp h with ⟨y, hy, hpy⟩
        rcases List.mem_cons.mp hy with rfl | hmem
        · exact hpy
        · exact absurd (List.any_eq_true.mpr ⟨y, hmem, hpy⟩) (by simp [hany])
      rw [updateLast, if_neg hany, if_pos hx]
      exact ⟨0, x, by simp, hx, by simp⟩

theorem getElem?_concat_self (l : List α) (x : α) : (l ++ [x])[l.length]? = some x := by
  induction l with
  | nil => rfl
  | cons y ys ih => simp [ih]

theorem getElem?_append_of_lt {l : List α} (l' : List α) {k : Nat} {e : α}
    (h : l[k]? = some e) : (l ++ l')[k]? = some e := by
  rw [List.getElem?_append, if_pos (getElem?_some_lt h)]
  exact h

theorem AddSecret_providers (st : State) (c : StoreConfig) (sec : Secret) :
    (st.AddSecret c sec).providers = st.providers := by
  unfold State.AddSecret
  by_cases h : st.stores.any (fun store => store.storeConfig = c) = true
  · rw [if_pos h]
  · rw [if_neg h]

theorem covered_GetResourcesByID (s : Sidecred) (now : Int) (a : String)
    (r : CredentialRequest) (st : State) (t : CredentialType) (id store : String)
    (h : covered s now a r st) :
    covered s now a r (st.GetResourcesByID t id store).2 := by
  unfold State.GetResourcesByID
  cases hg : st.getProviderState (CredentialType.Provider t) with
  | none => exact h
  | some p =>
    dsimp only
    obtain ⟨k, ps, res, hk, hty, hres, hmatch, hin, hdep, hval⟩ := h
    rcases updateFirst_getElem? (fun e => e.type = CredentialType.Provider t)
        (fun e => { e with resources := e.resources.map fun x =>
          if resourceMatches t id store x then { x with inUse := true } else x })
        st.providers k with hsame | ⟨e, he, hpe, he'⟩
    · exact ⟨k, ps, res, by rw [hsame]; exact hk, hty, hres, hmatch, hin, hdep, hval⟩
    · obtain rfl : ps = e := by rw [hk] at he; exact Option.some.inj he
      by_cases hc : resourceMatches t id store res = true
      · refine ⟨k, _, { res with inUse := true }, he', hty, ?_, hmatch, rfl, hdep, hval⟩
        exact List.mem_map.mpr ⟨res, hres, by rw [if_pos hc]⟩
      · refine ⟨k, _, res, he', hty, ?_, hmatch, hin, hdep, hval⟩
        exact List.mem_map.mpr ⟨res, hres, by rw [if_neg hc]⟩

theorem covered_AddResource (s : Sidecred) (now : Int) (a : String)
    (r : CredentialRequest) (st : State) (res' : Resource)
    (hne : ¬ (a = res'.store ∧ r.name = res'.id))
    (h : covered s now a r st) :
    covered s now a r (st.AddResource res') := by
  obtain ⟨k, ps, res, hk, hty, hres, hmatch, hin, hdep, hval⟩ := h
  have hkeyf : resourceKeyMatches res' res = false := by
    have h1 : res.store = a := by
      unfold resourceMatches at hmatch
      simp only [Bool.and_eq_true, decide_eq_true_eq] at hmatch
      exact hmatch.1.2
    have h2 : res.id = r.name := by
      unfold resourceMatches at hmatch
      simp only [Bool.and_eq_true, decide_eq_true_eq] at hmatch
      exact hmatch.2
    unfold resourceKeyMatches
    simp only [Bool.and_eq_false_iff, decide_eq_false_iff_not]
    by_cases hs : a = res'.store
    · by_cases hi : r.name = res'.id
      · exact absurd ⟨hs, hi⟩ hne
      · right; rw [h2]; exact hi
    · left; right; rw [h1]; exact hs
  unfold State.AddResource
  by_cases hany : st.providers.any (fun provider =>
      provider.type = CredentialType.Provider res'.type) = true
  · rw [if_pos hany]
    rcases updateLast_getElem? (fun provider => provider.type = CredentialType.Provider res'.type)
        (fun pst => { pst with resources :=
          (pst.resources.map fun x =>
            if resourceKeyMatches res' x then { x with deposed := true } else x) ++ [res'] })
        st.providers k with hsame | ⟨e, he, hpe, he'⟩
    · exact ⟨k, ps, res, by rw [hsame]; exact hk, hty, hres, hmatch, hin, hdep, hval⟩
    · obtain rfl : ps = e := by rw [hk] at he; exact Option.some.inj he
      refine ⟨k, _, res, he', hty, ?_, hmatch, hin, hdep, hval⟩
      refine List.mem_append_left _ (List.mem_map.mpr ⟨res, hres, ?_⟩)
      rw [hkeyf]
      simp
  · rw [if_neg hany]
    exact ⟨k, ps, res, getElem?_append_of_lt _ hk, hty, hres, hmatch, hin, hdep, hval⟩

theorem covered_AddSecret (s : Sidecred) (now : Int) (a : String)
    (r : CredentialRequest) (st : State) (c : StoreConfig) (sec : Secret)
    (h : covered s now a r st) :
    covered s now a r (st.AddSecret c sec) := by
  obtain ⟨k, ps, res, hk, rest⟩ := h
  exact ⟨k, ps, res, by rw [AddSecret_providers]; exact hk, rest⟩

theorem covered_writeCredsLoop (s : Sidecred) (now : Int) (a : String)
    (r : CredentialRequest) (write : StoreWrite) (ns : String) (sc : StoreConfig)
    (rid : String) :
    ∀ (creds : List Credential) (st : State), covered s now a r st →
      covered s now a r (writeCredsLoop write ns sc rid creds st).1 := by
  intro creds
  induction creds with
  | nil => intro st h; exact h
  | cons c cs ih =>
    intro st h
    rw [writeCredsLoop]
    cases hw : write ns c sc.config with
    | none => exact ih st h
    | some path => exact ih _ (covered_AddSecret s now a r st sc _ h)

theorem covered_processCredential (s : Sidecred) (now : Int) (ns : String)
    (sc : StoreConfig) (write : StoreWrite) (r' : CredentialRequest)
    (a : String) (r : CredentialRequest) (st : State)
    (h : covered s now a r st)
    (hne : ¬ (a = StoreConfig.Alias sc ∧ r.name = r'.name)) :
    covered s now a r (processCredential s now ns sc write r' st).1 := by
  unfold processCredential
  by_cases hname : r'.name = ""
  · rw [if_pos hname]; exact h
  · rw [if_neg hname]
    cases hp : lookupProvider s (CredentialType.Provider r'.type) with
    | none => exact h
    | some create =>
      dsimp only
      have h₁ : covered s now a r (st.GetResourcesByID r'.type r'.name (StoreConfig.Alias sc)).2 :=
        covered_GetResourcesByID s now a r st r'.type r'.name (StoreConfig.Alias sc) h
      by_cases hvalid : (st.GetResourcesByID r'.type r'.name (StoreConfig.Alias sc)).1.any
          (fun resource => r'.hasValidCredentials resource s.rotationWindow now) = true
      · rw [if_pos hvalid]
        exact h₁
      · rw [if_neg hvalid]
        cases hcr : create r' with
        | none => exact h₁
        | some cm =>
          obtain ⟨creds, metadata⟩ := cm
          cases creds with
          | nil => exact h₁
          | cons c0 rest =>
            dsimp only
            refine covered_writeCredsLoop s now a r write ns sc r'.name (c0 :: rest) _ ?_
            exact covered_AddResource s now a r _ _ hne h₁

theorem hasValid_deposed (r : CredentialRequest) (res : Resource) (w n : Int)
    (h : r.hasValidCredentials res w n = true) : res.deposed = false := by
  cases hd : res.deposed
  · rfl
  · rw [CredentialRequest.hasValidCredentials] at h
    simp [hd] at h

theorem isEqualConfig_refl (c : RawMessage) (h : ∀ b, ¬ c = RawMessage.invalid b) :
    isEqualConfig c c = true := by
  cases c with
  | empty => rfl
  | invalid b => exact absurd rfl (h b)
  | valid v => simp [isEqualConfig, RawMessage.isEmpty]

theorem hasValid_newResource (s : Sidecred) (now : Int) (r : CredentialRequest)
    (store : String) (exp : Int) (md : Option Metadata)
    (hcfg : ∀ b, ¬ r.config = RawMessage.invalid b)
    (htime : now ≤ exp - effRot s r) :
    r.hasValidCredentials (newResource r store exp md) s.rotationWindow now = true := by
  have htime' : ¬ (exp - (match r.rotationWindow with
      | none => s.rotationWindow
      | some d => d) < now) := by
    have he : effRot s r = match r.rotationWindow with
        | none => s.rotationWindow
        | some d => d := rfl
    rw [he] at htime
    omega
  unfold CredentialRequest.hasValidCredentials newResource
  rw [if_neg (by simp)]
  rw [if_neg (by simp)]
  rw [if_neg (not_not_intro (isEqualConfig_refl r.config hcfg))]
  dsimp only
  rw [if_neg htime']

theorem GetResourcesByID_none (st : State) (t : CredentialType) (id store : String)
    (hg : st.getProviderState (CredentialType.Provider t) = none) :
    st.GetResourcesByID t id store = ([], st) := by
  unfold State.GetResourcesByID
  rw [hg]

theorem GetResourcesByID_some (st : State) (t : CredentialType) (id store : String)
    (p : ProviderState) (hg : st.getProviderState (CredentialType.Provider t) = some p) :
    st.GetResourcesByID t id store =
      ((p.resources.map fun x =>
          if resourceMatches t id store x then { x with inUse := true } else x).filter
            (resourceMatches t id store),
        { st with providers :=
            (updateFirst (fun e => e.type = CredentialType.Provider t)
              (fun e => { e with resources := e.resources.map fun x =>
                if resourceMatches t id store x then { x with inUse := true } else x })
              st.providers) }) := by
  unfold State.GetResourcesByID
  rw [hg]

theorem AddResource_self_mem (st : State) (res : Resource) :
    ∃ (k : Nat) (ps : ProviderState), (st.AddResource res).providers[k]? = some ps
      ∧ ps.type = CredentialType.Provider res.type ∧ res ∈ ps.resources := by
  unfold State.AddResource
  by_cases hany : st.providers.any
      (fun provider => provider.type = CredentialType.Provider res.type) = true
  · rw [if_pos hany]
    obtain ⟨k, e, hk, hpe, hk'⟩ := updateLast_exists
      (fun provider => provider.type = CredentialType.Provider res.type)
      (fun pst => { pst with resources :=
        (pst.resources.map fun x =>
          if resourceKeyMatches res x then { x with deposed := true } else x) ++ [res] })
      st.providers hany
    refine ⟨k, _, hk', ?_, List.mem_append_right _ (List.mem_singleton.mpr rfl)⟩
    exact of_decide_eq_true hpe
  · rw [if_neg hany]
    exact ⟨st.providers.length, _, getElem?_concat_self _ _, rfl, List.mem_singleton.mpr rfl⟩

theorem processCredential_covered (s : Sidecred) (now : Int) (ns : String) (sc : StoreConfig)
    (write : StoreWrite) (r : CredentialRequest) (st : State)
    (hname : ¬ r.name = "")
    (hprov : (lookupProvider s (CredentialType.Provider r.type)).isSome = true)
    (hcfg : ∀ b, ¬ r.config = RawMessage.invalid b)
    (hev : ∀ result, Event.create r result ∈ (processCredential s now ns sc write r st).2 →
        createOK s now r result) :
    covered s now (StoreConfig.Alias sc) r (processCredential s now ns sc write r st).1 := by
  unfold processCredential at hev ⊢
  rw [if_neg hname] at hev ⊢
  cases hp : lookupProvider s (CredentialType.Provider r.type) with
  | none =>
    rw [hp] at hprov
    cases hprov
  | some create =>
    rw [hp] at hev
    dsimp only at hev ⊢
    by_cases hvalid : (st.GetResourcesByID r.type r.name (StoreConfig.Alias sc)).1.any
        (fun resource => r.hasValidCredentials resource s.rotationWindow now) = true
    · rw [if_pos hvalid]
      cases hg : st.getProviderState (CredentialType.Provider r.type) with
      | none =>
        rw [GetResourcesByID_none st r.type r.name (StoreConfig.Alias sc) hg] at hvalid
        simp at hvalid
      | some p =>
        rw [GetResourcesByID_some st r.type r.name (StoreConfig.Alias sc) p hg] at hvalid ⊢
        dsimp only at hvalid ⊢
        unfold State.getProviderState at hg
        obtain ⟨res', hres'mem, hres'val⟩ := List.any_eq_true.mp hvalid
        obtain ⟨hmap, hmatch'⟩ := List.mem_filter.mp hres'mem
        obtain ⟨k, hk, hpk, hfirst⟩ := find?_some_index _ st.providers p hg
        have hset := updateFirst_eq_set
          (fun e => e.type = CredentialType.Provider r.type)
          (fun e => { e with resources := e.resources.map fun x =>
            if resourceMatches r.type r.name (StoreConfig.Alias sc) x
            then { x with inUse := true } else x })
          st.providers k p hk hpk hfirst
        refine ⟨k, { p with resources := p.resources.map fun x =>
            if resourceMatches r.type r.name (StoreConfig.Alias sc) x
            then { x with inUse := true } else x },
          res', ?_, of_decide_eq_true hpk, hmap, hmatch', ?_,
          hasValid_deposed r res' s.rotationWindow now hres'val, hres'val⟩
        · show (updateFirst _ _ st.providers)[k]? = _
          rw [hset]
          rw [List.getElem?_set_self (by simpa using getElem?_some_lt hk)]
        · obtain ⟨x, hx, hxeq⟩ := List.mem_map.mp hmap
          by_cases hcx : resourceMatches r.type r.name (StoreConfig.Alias sc) x = true
          · rw [if_pos hcx] at hxeq
            rw [← hxeq]
          · rw [if_neg hcx] at hxeq
            rw [← hxeq] at hmatch'
            exact absurd hmatch' (by simp [hcx])
    · rw [if_neg hvalid] at hev ⊢
      cases hcr : create r with
      | none =>
        exfalso
        rw [hcr] at hev
        obtain ⟨⟨creds', md', heq, _⟩, _⟩ := hev none (List.mem_singleton.mpr rfl)
        cases heq
      | some cm =>
        obtain ⟨creds, metadata⟩ := cm
        rw [hcr] at hev
        cases creds with
        | nil =>
          exfalso
          obtain ⟨⟨creds', md', heq, hcne⟩, _⟩ :=
            hev (some ([], metadata)) (List.mem_singleton.mpr rfl)
          exact hcne (congrArg Prod.fst (Option.some.inj heq)).symm
        | cons c0 rest =>
          dsimp only at hev ⊢
          have htime : now ≤ c0.expiration - effRot s r := by
            obtain ⟨_, h2⟩ := hev (some (c0 :: rest, metadata)) (List.mem_cons_self _ _)
            exact h2 (c0 :: rest) metadata c0 rfl rfl
          refine covered_writeCredsLoop s now (StoreConfig.Alias sc) r write ns sc r.name
            (c0 :: rest) _ ?_
          obtain ⟨k, ps, hk, hty, hmem⟩ := AddResource_self_mem
            (st.GetResourcesByID r.type r.name (StoreConfig.Alias sc)).2
            (newResource r (StoreConfig.Alias sc) c0.expiration metadata)
          refine ⟨k, ps, _, hk, hty, hmem, by simp [resourceMatches, newResource], rfl, rfl, ?_⟩
          exact hasValid_newResource s now r (StoreConfig.Alias sc) c0.expiration metadata
            hcfg htime

theorem findStoreConfig_alias_aux (a : String) :
    ∀ (stores : List StoreConfig) (acc : Option StoreConfig),
      (∀ sc₀, acc = some sc₀ → StoreConfig.Alias sc₀ = a) →
      ∀ sc, stores.foldl (fun acc sc => if StoreConfig.Alias sc = a then some sc else acc) acc
          = some sc → StoreConfig.Alias sc = a := by
  intro stores
  induction stores with
  | nil => intro acc hacc sc h; exact hacc sc h
  | cons x xs ih =>
    intro acc hacc sc h
    rw [List.foldl_cons] at h
    refine ih _ ?_ sc h
    intro sc₀ heq
    by_cases hx : StoreConfig.Alias x = a
    · rw [if_pos hx] at heq
      obtain rfl := Option.some.inj heq
      exact hx
    · rw [if_neg hx] at heq
      exact hacc sc₀ heq

theorem findStoreConfig_alias (stores : List StoreConfig) (a : String) (sc : StoreConfig)
    (h : findStoreConfig stores a = some sc) : StoreConfig.Alias sc = a :=
  findStoreConfig_alias_aux a stores none (fun _ h' => by cases h') sc h

theorem processCredentials_covered (s : Sidecred) (now : Int) (ns : String) (sc : StoreConfig)
    (write : StoreWrite) :
    ∀ (rs : List CredentialRequest) (st : State),
      (rs.map (fun r => r.name)).Nodup →
      (∀ r ∈ rs, ∀ b, ¬ r.config = RawMessage.invalid b) →
      (∀ r result, Event.create r result ∈ (processCredentials s now ns sc write rs st).2 →
          createOK s now r result) →
      (∀ (a : String) (r₀ : CredentialRequest), covered s now a r₀ st →
          (∀ r ∈ rs, ¬ (a = StoreConfig.Alias sc ∧ r₀.name = r.name)) →
          covered s now a r₀ (processCredentials s now ns sc write rs st).1)
      ∧ (∀ r ∈ rs, ¬ r.name = "" →
          (lookupProvider s (CredentialType.Provider r.type)).isSome = true →
          covered s now (StoreConfig.Alias sc) r
            (processCredentials s now ns sc write rs st).1) := by
  intro rs
  induction rs with
  | nil =>
    intro st _ _ _
    exact ⟨fun a r₀ h _ => h, fun r hr => absurd hr (List.not_mem_nil r)⟩
  | cons x xs ih =>
    intro st hnodup hcfg hev
    have hevx : ∀ result, Event.create x result ∈ (processCredential s now ns sc write x st).2 →
        createOK s now x result := by
      intro result hm
      refine hev x result ?_
      rw [processCredentials]
      exact List.mem_append_left _ hm
    have hevxs : ∀ r result,
        Event.create r result ∈ (processCredentials s now ns sc write xs
          (processCredential s now ns sc write x st).1).2 → createOK s now r result := by
      intro r result hm
      refine hev r result ?_
      rw [processCredentials]
      exact List.mem_append_right _ hm
    have hnx : x.name ∉ xs.map (fun r => r.name) := (List.nodup_cons.mp hnodup).1
    have hnxs : (xs.map (fun r => r.name)).Nodup := (List.nodup_cons.mp hnodup).2
    have hcfgx : ∀ b, ¬ x.config = RawMessage.invalid b := hcfg x (List.mem_cons_self _ _)
    have hcfgxs : ∀ r ∈ xs, ∀ b, ¬ r.config = RawMessage.invalid b :=
      fun r hr => hcfg r (List.mem_cons_of_mem x hr)
    obtain ⟨IH1, IH2⟩ := ih (processCredential s now ns sc write x st).1 hnxs hcfgxs hevxs
    constructor
    · intro a r₀ hcov hne
      rw [processCredentials]
      refine IH1 a r₀ ?_ (fun r hr => hne r (List.mem_cons_of_mem x hr))
      exact covered_processCredential s now ns sc write x a r₀ st hcov
        (hne x (List.mem_cons_self _ _))
    · intro r hr hname hpr
      rw [processCredentials]
      rcases List.mem_cons.mp hr with rfl | hmem
      · refine IH1 (StoreConfig.Alias sc) r ?_ ?_
        · exact processCredential_covered s now ns sc write r st hname hpr hcfgx hevx
        · rintro r' hr' ⟨-, hnm⟩
          refine hnx ?_
          rw [hnm]
          exact List.mem_map.mpr ⟨r', hr', rfl⟩
      · exact IH2 r hmem hname hpr

theorem nodup_names_of_nodup_pairs (store : String) :
    ∀ (l : List CredentialRequest),
      (l.map (fun r => (store, r.name))).Nodup → (l.map (fun r => r.name)).Nodup := by
  intro l
  induction l with
  | nil => intro _; simp
  | cons x xs ih =>
    intro h
    simp only [List.map_cons, List.nodup_cons] at h ⊢
    refine ⟨?_, ih h.2⟩
    intro hmem
    obtain ⟨r, hr, heq⟩ := List.mem_map.mp hmem
    refine h.1 (List.mem_map.mpr ⟨r, hr, ?_⟩)
    dsimp only
    rw [heq]

theorem processRequests_covered (s : Sidecred) (now : Int) (cfg : Config) :
    ∀ (maps : List CredentialsMap) (st : State),
      ((maps.map (fun m => m.credentials.map (fun r => (m.store, r.name)))).flatten).Nodup →
      (∀ m ∈ maps, ∀ r ∈ m.credentials, ∀ b, ¬ r.config = RawMessage.invalid b) →
      (∀ r result, Event.create r result ∈ (processRequests s now cfg maps st).2 →
          createOK s now r result) →
      (∀ (a : String) (r₀ : CredentialRequest), covered s now a r₀ st →
          (∀ m ∈ maps, ∀ r ∈ m.credentials, ¬ (a = m.store ∧ r₀.name = r.name)) →
          covered s now a r₀ (processRequests s now cfg maps st).1)
      ∧ (∀ m ∈ maps, ∀ sc, findStoreConfig cfg.stores m.store = some sc →
          ∀ w, lookupStore s sc.type = some w →
          ∀ r ∈ m.credentials, ¬ r.name = "" →
          (lookupProvider s (CredentialType.Provider r.type)).isSome = true →
          covered s now (StoreConfig.Alias sc) r (processRequests s now cfg maps st).1) := by
  intro maps
  induction maps with
  | nil =>
    intro st _ _ _
    exact ⟨fun a r₀ h _ => h, fun m hm => absurd hm (List.not_mem_nil m)⟩
  | cons m ms ih =>
    intro st hnodup hcfg hev
    have hevm : ∀ r result, Event.create r result ∈ (processRequest s now cfg m st).2 →
        createOK s now r result := by
      intro r result hm'
      refine hev r result ?_
      rw [processRequests]
      exact List.mem_append_left _ hm'
    have hevms : ∀ r result, Event.create r result ∈ (processRequests s now cfg ms
        (processRequest s now cfg m st).1).2 → createOK s now r result := by
      intro r result hm'
      refine hev r result ?_
      rw [processRequests]
      exact List.mem_append_right _ hm'
    have hflat : ((m.credentials.map (fun r => (m.store, r.name)))
        ++ (ms.map (fun m' => m'.credentials.map (fun r => (m'.store, r.name)))).flatten).Nodup := by
      simpa using hnodup
    have hnm := (List.nodup_append.mp hflat).1
    have hnms := (List.nodup_append.mp hflat).2.1
    have hdisj := (List.nodup_append.mp hflat).2.2
    have hcfgm : ∀ r ∈ m.credentials, ∀ b, ¬ r.config = RawMessage.invalid b :=
      hcfg m (List.mem_cons_self _ _)
    have hcfgms : ∀ m' ∈ ms, ∀ r ∈ m'.credentials, ∀ b, ¬ r.config = RawMessage.invalid b :=
      fun m' hm' => hcfg m' (List.mem_cons_of_mem m hm')
    obtain ⟨IH1, IH2⟩ := ih (processRequest s now cfg m st).1 hnms hcfgms hevms
    have hstep1 : ∀ (a : String) (r₀ : CredentialRequest), covered s now a r₀ st →
        (∀ r ∈ m.credentials, ¬ (a = m.store ∧ r₀.name = r.name)) →
        covered s now a r₀ (processRequest s now cfg m st).1 := by
      intro a r₀ hcov hne
      unfold processRequest
      cases hfs : findStoreConfig cfg.stores m.store with
      | none => exact hcov
      | some sc' =>
        dsimp only
        cases hls : lookupStore s sc'.type with
        | none => exact hcov
        | some w' =>
          have halias : StoreConfig.Alias sc' = m.store := findStoreConfig_alias _ _ _ hfs
          have hnames : (m.credentials.map (fun r => r.name)).Nodup :=
            nodup_names_of_nodup_pairs m.store m.credentials hnm
          have hreq : processRequest s now cfg m st
              = processCredentials s now cfg.ns sc' w' m.credentials st := by
            unfold processRequest
            rw [hfs]
            dsimp only
            rw [hls]
          rw [hreq] at hevm
          obtain ⟨P1, _⟩ := processCredentials_covered s now cfg.ns sc' w'
            m.credentials st hnames hcfgm hevm
          refine P1 a r₀ hcov ?_
          intro r hr hc
          exact hne r hr ⟨by rw [halias] at hc; exact hc.1, hc.2⟩
    have hstep2 : ∀ sc, findStoreConfig cfg.stores m.store = some sc →
        ∀ w, lookupStore s sc.type = some w →
        ∀ r ∈ m.credentials, ¬ r.name = "" →
        (lookupProvider s (CredentialType.Provider r.type)).isSome = true →
        covered s now (StoreConfig.Alias sc) r (processRequest s now cfg m st).1 := by
      intro sc hsc w hw r hr hname hpr
      have hnames : (m.credentials.map (fun r => r.name)).Nodup :=
        nodup_names_of_nodup_pairs m.store m.credentials hnm
      have hreq : processRequest s now cfg m st
          = processCredentials s now cfg.ns sc w m.credentials st := by
        unfold processRequest
        rw [hsc]
        dsimp only
        rw [hw]
      rw [hreq] at hevm
      obtain ⟨_, P2⟩ := processCredentials_covered s now cfg.ns sc w
        m.credentials st hnames hcfgm hevm
      rw [hreq]
      exact P2 r hr hname hpr
    constructor
    · intro a r₀ hcov hne
      rw [processRequests]
      refine IH1 a r₀ ?_ (fun m' hm' => hne m' (List.mem_cons_of_mem m hm'))
      exact hstep1 a r₀ hcov (hne m (List.mem_cons_self _ _))
    · intro m' hm' sc hsc w hw r hr hname hpr
      rw [processRequests]
      rcases List.mem_cons.mp hm' with rfl | hmem
      · refine IH1 (StoreConfig.Alias sc) r ?_ ?_
        · exact hstep2 sc hsc w hw r hr hname hpr
        · rintro m'' hm'' r'' hr'' ⟨hs, hn⟩
          have halias : StoreConfig.Alias sc = m'.store := findStoreConfig_alias _ _ _ hsc
          have hstore : m'.store = m''.store := by
            rw [← halias]
            exact hs
          have hpair : (m'.store, r.name) = (m''.store, r''.name) := by
            rw [hstore, hn]
          refine hdisj (List.mem_map.mpr ⟨r, hr, rfl⟩) ?_
          rw [hpair]
          exact List.mem_flatten.mpr ⟨_, List.mem_map.mpr ⟨m'', hm'', rfl⟩,
            List.mem_map.mpr ⟨r'', hr'', rfl⟩⟩
      · exact IH2 m' hmem sc hsc w hw r hr hname hpr

theorem set_inUse_self (res : Resource) (h : res.inUse = true) :
    ({ res with inUse := true } : Resource) = res := by
  cases res with
  | mk t i st c e d m iu =>
    have h' : iu = true := h
    subst h'
    rfl

theorem mark_map_id (t : CredentialType) (id store : String) :
    ∀ (l : List Resource), (∀ x ∈ l, x.inUse = true) →
      (l.map fun x =>
        if resourceMatches t id store x then { x with inUse := true } else x) = l := by
  intro l
  induction l with
  | nil => intro _; rfl
  | cons x xs ih =>
    intro h
    rw [List.map_cons, ih (fun y hy => h y (List.mem_cons_of_mem x hy))]
    by_cases hc : resourceMatches t id store x = true
    · rw [if_pos hc, set_inUse_self x (h x (List.mem_cons_self _ _))]
    · rw [if_neg hc]

theorem processCredential_run2 (s : Sidecred) (now : Int) (ns : String) (sc : StoreConfig)
    (write : StoreWrite) (r : CredentialRequest) (st : State)
    (hd : distinctProviderTypes st)
    (hgood : ∀ entry ∈ st.providers, (lookupProvider s entry.type).isSome = true →
        ∀ x ∈ entry.resources, x.inUse = true ∧ x.deposed = false)
    (hcov : ¬ r.name = "" → (lookupProvider s (CredentialType.Provider r.type)).isSome = true →
        covered s now (StoreConfig.Alias sc) r st) :
    processCredential s now ns sc write r st = (st, []) := by
  unfold processCredential
  by_cases hname : r.name = ""
  · rw [if_pos hname]
  · rw [if_neg hname]
    cases hp : lookupProvider s (CredentialType.Provider r.type) with
    | none => rfl
    | some create =>
      dsimp only
      obtain ⟨k, ps, res, hk, hty, hres, hmatch, hin, hdep, hval⟩ :=
        hcov hname (by rw [hp]; rfl)
      have hfirst : ∀ i, i < k → ∀ x, st.providers[i]? = some x →
          (decide (x.type = CredentialType.Provider r.type)) = false := by
        intro i hi x hx
        simp only [decide_eq_false_iff_not]
        rw [← hty]
        exact distinct_types_ne st hd hk hx (Nat.ne_of_lt hi)
      have hg : st.getProviderState (CredentialType.Provider r.type) = some ps := by
        unfold State.getProviderState
        exact find?_eq_of_first _ st.providers k ps hk (by simp [hty]) hfirst
      rw [GetResourcesByID_some st r.type r.name (StoreConfig.Alias sc) ps hg]
      dsimp only
      have hpsgood : ∀ x ∈ ps.resources, x.inUse = true := by
        intro x hx
        refine (hgood ps (List.getElem?_mem hk) ?_ x hx).1
        rw [hty, hp]
        rfl
      rw [mark_map_id r.type r.name (StoreConfig.Alias sc) ps.resources hpsgood]
      have hany : (ps.resources.filter
          (resourceMatches r.type r.name (StoreConfig.Alias sc))).any
          (fun resource => r.hasValidCredentials resource s.rotationWindow now) = true :=
        List.any_eq_true.mpr ⟨res, List.mem_filter.mpr ⟨hres, hmatch⟩, hval⟩
      rw [if_pos hany]
      have hupd : updateFirst (fun e => e.type = CredentialType.Provider r.type)
          (fun e => { e with resources := e.resources.map fun x =>
            if resourceMatches r.type r.name (StoreConfig.Alias sc) x
            then { x with inUse := true } else x }) st.providers = st.providers := by
        refine updateFirst_id _ _ st.providers ?_
        intro a ha hpa
        have hareg : (lookupProvider s a.type).isSome = true := by
          rw [of_decide_eq_true hpa, hp]
          rfl
        have hmapid : (a.resources.map fun x =>
            if resourceMatches r.type r.name (StoreConfig.Alias sc) x
            then { x with inUse := true } else x) = a.resources :=
          mark_map_id _ _ _ a.resources (fun x hx => (hgood a ha hareg x hx).1)
        rw [hmapid]
      rw [hupd]

theorem processCredentials_run2 (s : Sidecred) (now : Int) (ns : String) (sc : StoreConfig)
    (write : StoreWrite) :
    ∀ (rs : List CredentialRequest) (st : State),
      distinctProviderTypes st →
      (∀ entry ∈ st.providers, (lookupProvider s entry.type).isSome = true →
          ∀ x ∈ entry.resources, x.inUse = true ∧ x.deposed = false) →
      (∀ r ∈ rs, ¬ r.name = "" →
          (lookupProvider s (CredentialType.Provider r.type)).isSome = true →
          covered s now (StoreConfig.Alias sc) r st) →
      processCredentials s now ns sc write rs st = (st, []) := by
  intro rs
  induction rs with
  | nil => intro st _ _ _; rfl
  | cons x xs ih =>
    intro st hd hgood hcov
    have hx : processCredential s now ns sc write x st = (st, []) :=
      processCredential_run2 s now ns sc write x st hd hgood
        (fun hn hp => hcov x (List.mem_cons_self _ _) hn hp)
    rw [processCredentials]
    show ((processCredentials s now ns sc write xs
        (processCredential s now ns sc write x st).1).1,
      (processCredential s now ns sc write x st).2
        ++ (processCredentials s now ns sc write xs
          (processCredential s now ns sc write x st).1).2) = (st, [])
    rw [hx]
    dsimp only
    rw [ih st hd hgood (fun r hr => hcov r (List.mem_cons_of_mem x hr))]
    rfl

theorem processRequests_run2 (s : Sidecred) (now : Int) (cfg : Config) :
    ∀ (maps : List CredentialsMap) (st : State),
      distinctProviderTypes st →
      (∀ entry ∈ st.providers, (lookupProvider s entry.type).isSome = true →
          ∀ x ∈ entry.resources, x.inUse = true ∧ x.deposed = false) →
      (∀ m ∈ maps, ∀ sc, findStoreConfig cfg.stores m.store = some sc →
          ∀ w, lookupStore s sc.type = some w →
          ∀ r ∈ m.credentials, ¬ r.name = "" →
          (lookupProvider s (CredentialType.Provider r.type)).isSome = true →
          covered s now (StoreConfig.Alias sc) r st) →
      processRequests s now cfg maps st = (st, []) := by
  intro maps
  induction maps with
  | nil => intro st _ _ _; rfl
  | cons m ms ih =>
    intro st hd hgood hcov
    have hm : processRequest s now cfg m st = (st, []) := by
      unfold processRequest
      cases hfs : findStoreConfig cfg.stores m.store with
      | none => rfl
      | some sc =>
        dsimp only
        cases hls : lookupStore s sc.type with
        | none => rfl
        | some w =>
          exact processCredentials_run2 s now cfg.ns sc w m.credentials st hd hgood
            (fun r hr => hcov m (List.mem_cons_self _ _) sc hfs w hls r hr)
    rw [processRequests]
    show ((processRequests s now cfg ms (processRequest s now cfg m st).1).1,
      (processRequest s now cfg m st).2
        ++ (processRequests s now cfg ms (processRequest s now cfg m st).1).2) = (st, [])
    rw [hm]
    dsimp only
    rw [ih st hd hgood (fun m' hm' => hcov m' (List.mem_cons_of_mem m hm'))]
    rfl

/-- C5: `Process` is idempotent: if one run over a well-formed state
succeeds, with every provider `Create` call returning a non-empty credential
list whose head credential expires outside the request's effective rotation
window at `now`, every store `Write` call succeeding, the flattened
`(store, name)` request keys globally unique and no request config being
syntactically invalid JSON, then a second run on the saved state with the
same config and an unchanged clock performs no provider `Create` calls and
no store `Write` calls (it records no external calls at all) and returns
the state unchanged. -/
theorem process_idempotent (s : Sidecred) (now : Int) (cfg : Config) (st st₁ : State)
    (evs₁ : List Event)
    (hinv : StateInv st)
    (huniq : ((cfg.requests.map (fun m =>
        m.credentials.map (fun r => (m.store, r.name)))).flatten).Nodup)
    (hcfg : ∀ m ∈ cfg.requests, ∀ r ∈ m.credentials, ∀ b, ¬ r.config = RawMessage.invalid b)
    (hrun : s.Process now cfg st = Except.ok (st₁, evs₁))
    (hev : ∀ r result, Event.create r result ∈ evs₁ → createOK s now r result)
    (hwr : ∀ c result, Event.write c result ∈ evs₁ → ∃ path, result = some path) :
    s.Process now cfg st₁ = Except.ok (st₁, []) := by
  unfold Sidecred.Process at hrun ⊢
  cases hv : cfg.validateErr with
  | some e => rw [hv] at hrun; cases hrun
  | none =>
    rw [hv] at hrun
    dsimp only at hrun ⊢
    have hpair := Except.ok.inj hrun
    have hevs : (processRequests s now cfg cfg.requests st).2
        ++ (resourceSweep s (processRequests s now cfg cfg.requests st).1).2
        ++ (orphanSweep s (resourceSweep s
            (processRequests s now cfg cfg.requests st).1).1).2 = evs₁ :=
      congrArg Prod.snd hpair
    have hinvA : StateInv (processRequests s now cfg cfg.requests st).1 :=
      processRequests_inv s now cfg cfg.requests st hinv
    have hevA : ∀ r result,
        Event.create r result ∈ (processRequests s now cfg cfg.requests st).2 →
        createOK s now r result := by
      intro r result hm
      refine hev r result ?_
      rw [← hevs]
      exact List.mem_append_left _ (List.mem_append_left _ hm)
    obtain ⟨-, PcovA⟩ := processRequests_covered s now cfg cfg.requests st huniq hcfg hevA
    obtain ⟨st₂, evs₂, heq₂, hd₂, hc₂, hstores₂, hlen₂, hunt₂, hgood₂, hkeep₂⟩ :=
      resourceSweep_fold s
        (List.range (processRequests s now cfg cfg.requests st).1.providers.length)
        (processRequests s now cfg cfg.requests st).1 [] hinvA.1 hinvA.2.1
    have hsw₂ : resourceSweep s (processRequests s now cfg cfg.requests st).1 = (st₂, evs₂) :=
      heq₂
    have hd₂' : distinctStoreEntries st₂ := by
      unfold distinctStoreEntries
      rw [hstores₂]
      exact hinvA.2.2.2.1
    have hu₂' : uniqueSecretPaths st₂ := by
      intro e he
      rw [hstores₂] at he
      exact hinvA.2.2.2.2 e he
    obtain ⟨st₃, evs₃, heq₃, hprov₃, hd₃, hu₃, hunt₃, hshr₃, horph₃⟩ :=
      orphanSweep_fold s (List.range st₂.stores.length) st₂ [] hd₂' hu₂'
    have hsw₃ : orphanSweep s st₂ = (st₃, evs₃) := heq₃
    have hst : (orphanSweep s (resourceSweep s
        (processRequests s now cfg cfg.requests st).1).1).1 = st₁ :=
      congrArg Prod.fst hpair
    rw [hsw₂] at hst
    dsimp only at hst
    rw [hsw₃] at hst
    have hst' : st₃ = st₁ := hst
    subst hst'
    have hprovs : st₃.providers = st₂.providers := hprov₃
    have hdF : distinctProviderTypes st₃ := by
      unfold distinctProviderTypes
      rw [hprovs]
      exact hd₂
    have hgoodF : ∀ entry ∈ st₃.providers, (lookupProvider s entry.type).isSome = true →
        ∀ x ∈ entry.resources, x.inUse = true ∧ x.deposed = false := by
      intro entry hentry hreg x hx
      rw [hprovs] at hentry
      obtain ⟨k, hk⟩ := List.mem_iff_getElem?.mp hentry
      have hklen : k < (processRequests s now cfg cfg.requests st).1.providers.length := by
        rw [← hlen₂]
        exact getElem?_some_lt hk
      exact hgood₂ k (List.mem_range.mpr hklen) entry hk hreg x hx
    have hcovF : ∀ m ∈ cfg.requests, ∀ sc, findStoreConfig cfg.stores m.store = some sc →
        ∀ w, lookupStore s sc.type = some w →
        ∀ r ∈ m.credentials, ¬ r.name = "" →
        (lookupProvider s (CredentialType.Provider r.type)).isSome = true →
        covered s now (StoreConfig.Alias sc) r st₃ := by
      intro m hm sc hsc w hw r hr hname hpr
      obtain ⟨k, ps, res, hk, hty, hres, hmatch, hin, hdep, hval⟩ :=
        PcovA m hm sc hsc w hw r hr hname hpr
      have hk2 : k < st₂.providers.length := by
        rw [hlen₂]
        exact getElem?_some_lt hk
      cases hk2' : st₂.providers[k]? with
      | none =>
        rw [List.getElem?_eq_none_iff] at hk2'
        omega
      | some entry =>
        obtain ⟨htyk, hsub, hkeep⟩ := hkeep₂ k ps entry hk hk2'
        have hok : orderedKeys ps.resources := hinvA.2.2.1 ps (List.getElem?_mem hk)
        refine ⟨k, entry, res, ?_, ?_, hkeep hok res hres hin hdep, hmatch, hin, hdep, hval⟩
        · rw [hprovs]
          exact hk2'
        · rw [htyk]
          exact hty
    have hphase1 : processRequests s now cfg cfg.requests st₃ = (st₃, []) :=
      processRequests_run2 s now cfg cfg.requests st₃ hdF hgoodF hcovF
    have hrs : resourceSweep s st₃ = (st₃, []) := by
      refine resourceSweep_identity s st₃ ?_
      intro entry hentry
      by_cases hreg : (lookupProvider s entry.type).isSome = true
      · exact Or.inr (hgoodF entry hentry hreg)
      · left
        cases hl : lookupProvider s entry.type with
        | none => rfl
        | some v => rw [hl] at hreg; exact absurd rfl hreg
    have hos : orphanSweep s st₃ = (st₃, []) := by
      refine orphanSweep_identity s st₃ ?_
      intro entry hentry hreg
      obtain ⟨j, hj⟩ := List.mem_iff_getElem?.mp hentry
      rw [ListOrphanedSecrets_entry st₃ hd₃ j entry hj]
      rw [List.filter_eq_nil_iff]
      intro sec hsec
      have hjlen : j < st₂.stores.length := by
        by_contra hcj
        have hjn := hunt₃ j (fun hmem => hcj (List.mem_range.mp hmem))
        rw [hjn] at hj
        rw [List.getElem?_eq_none (Nat.le_of_not_lt hcj)] at hj
        cases hj
      have hcont := horph₃ j (List.mem_range.mpr hjlen) entry hj hreg sec hsec
      rw [← hprovs] at hcont
      simp at hcont
      simpa using hcont
    rw [hphase1]
    dsimp only
    rw [hrs]
    dsimp only
    rw [hos]
    rfl

/-- Witness for `process_idempotent` at a concrete input: a first run from
the empty state over a one-request config succeeds with one `Create` and one
`Write`, and the second run over the saved state is a no-op. -/
theorem process_idempotent_witness :
    exSidecred.Process 0 wConfig wSt1 = Except.ok (wSt1, []) :=
  process_idempotent exSidecred 0 wConfig NewState wSt1 wEvs
    stateInv_NewState
    (by decide)
    (by
      intro m hm r hr b
      simp only [wConfig, wRequestMap, List.mem_singleton] at hm
      subst hm
      simp only [List.mem_singleton] at hr
      subst hr
      simp [exRequest])
    (by rfl)
    (by
      intro r result h
      simp only [wEvs, List.mem_cons, List.not_mem_nil, or_false] at h
      rcases h with h | h
      · obtain ⟨rfl, rfl⟩ := Event.create.inj h
        constructor
        · exact ⟨[wCred], none, rfl, by decide⟩
        · intro creds md c0 h1 h2
          obtain h3 := Option.some.inj h1
          obtain rfl : creds = [wCred] := (congrArg Prod.fst h3).symm
          obtain rfl : c0 = wCred := (Option.some.inj h2).symm
          decide
      · exact Event.noConfusion h)
    (by
      intro c result h
      simp only [wEvs, List.mem_cons, List.not_mem_nil, or_false] at h
      rcases h with h | h
      · exact Event.noConfusion h
      · obtain ⟨rfl, rfl⟩ := Event.write.inj h
        exact ⟨"team-name.fake-credential", rfl⟩)
